import Mathlib

/-!
A verification development for `github_to_text.py`, a repository-to-text
converter.  The script's core pipeline (pattern matcher, file selector,
per-language content optimizer, chunk assembler) is shallowly embedded
below: pure Python functions become Lean functions over `String` /
`List Char`, the filesystem is an explicit tree of file metadata, and
code that can raise (`Path.stat`, `open`/`read`) is modelled with
`Except` / `Option`.  External library collaborators (`fnmatch`, `json`)
are modelled from the behaviour the specification assigns to them.
-/

namespace GithubToText

/-! ## Character classes

`\s` in the script's regexes (ASCII range) and Python `str.strip`. -/

/-- ASCII whitespace as matched by `\s` in the source's regexes and
stripped by Python `str.strip`. -/
def wsB (c : Char) : Bool :=
  c = ' ' || c = '\t' || c = '\n' || c = '\r' || c = '\x0b' || c = '\x0c'

/-- The double-quote character (written via its code point). -/
def dquote : Char := Char.ofNat 34

/-- The single-quote character (written via its code point). -/
def squote : Char := Char.ofNat 39

/-- The backslash character (written via its code point). -/
def bslash : Char := Char.ofNat 92

/-- Python `str.strip()` on one line / one string, restricted to ASCII
whitespace: drop leading and trailing whitespace characters. -/
def pyStrip (s : List Char) : List Char :=
  ((s.dropWhile wsB).reverse.dropWhile wsB).reverse

/-- Substring test: does `pat` occur contiguously inside `s`?  Models
Python's `pat in s` on strings. -/
def hasSub (pat : List Char) : List Char → Bool
  | [] => decide (pat = [])
  | c :: rest => List.isPrefixOf pat (c :: rest) || hasSub pat rest

/-! ## Pattern Matcher (`path_matches_pattern`, source lines 539-544)

`fnmatch.fnmatch` is an external collaborator.  Modelled from the spec:
shell-glob matching against the path as a flat string, where `*` matches
any run of characters (including none) and `?` matches a single
character; all other pattern characters are literal (the spec's ignore
patterns use only `*` wildcards and literals). -/

/-- Modelled from the spec: flat-string shell-glob matching (the
`fnmatch.fnmatch` collaborator).  `*` matches any run of characters,
`?` one character, everything else is literal. -/
def globMatch : List Char → List Char → Bool
  | [], s => s.isEmpty
  | p :: ps, s =>
    if p = '*' then
      (List.range (s.length + 1)).any (fun k => globMatch ps (s.drop k))
    else
      match s with
      | [] => false
      | c :: cs => (p = '?' || p = c) && globMatch ps cs

/-- `path_matches_pattern` from the source: true iff the path matches at
least one of the glob patterns. -/
def path_matches_pattern (path : String) (patterns : List String) : Bool :=
  patterns.any (fun pat => globMatch pat.toList path.toList)

/-! ## Chunk Assembler (`process_repository`, source lines 717-735)

The per-record accumulation loop of `process_repository`, abstracted
over the list of already-formatted records.  `init` is the content the
loop starts from (the repository-info header, or `""` when
`--include-repo-info` is off).  Faithful details: a chunk is sealed
exactly when `len(current) + len(record) > chunk_size` with
`chunk_size > 0` (so the sealed chunk may be the empty initial
accumulator), and the final accumulator is appended only when nonempty
(Python truthiness of `if current_chunk:`). -/

/-- The chunk-accumulation loop of `process_repository`: `B` is
`args.chunk_size`, `cur` the running `current_chunk`, and the result the
`output_chunks` list (the suffix produced from this point on). -/
def processChunks (B : Nat) (cur : String) : List String → List String
  | [] => if cur = "" then [] else [cur]
  | r :: rest =>
    if B > 0 then
      if cur.length + r.length > B then
        cur :: processChunks B r rest
      else
        processChunks B (cur ++ r) rest
    else
      processChunks B (cur ++ r) rest

/-- The largest record size in a list of formatted records. -/
def maxRecLen (rs : List String) : Nat :=
  rs.foldr (fun r m => Nat.max r.length m) 0

/-! ## Generic optimizer (`optimize_generic_code`, source lines 383-397) -/

/-- One processed line of `optimize_generic_code`: strip, drop if blank,
drop if it starts with a comment marker and comments are not preserved,
otherwise keep the stripped line. -/
def genericLine (preserve_comments : Bool) (line : List Char) : Option (List Char) :=
  let l := pyStrip line
  if l = [] then none
  else if !preserve_comments &&
      (List.isPrefixOf ['#'] l || List.isPrefixOf ['/', '/'] l ||
        List.isPrefixOf ['-', '-'] l) then none
  else some l

/-- `optimize_generic_code` from the source: split on newlines, process
each line, join the kept lines with newlines. -/
def optimize_generic_code (content : List Char) (preserve_comments : Bool) : List Char :=
  List.intercalate ['\n'] ((content.splitOn '\n').filterMap (genericLine preserve_comments))

/-! ## JSON model (`optimize_json_code`, source lines 372-381)

`json.loads` / `json.dumps` are external library collaborators.
Modelled from the spec: "parse and re-serialize with no extraneous
whitespace (minified form); on parse failure, fall back to the generic
transform".  The model covers the integer-number fragment of JSON
(floating-point literals are outside the embedding) and the named
backslash escapes plus `\uXXXX` for string characters. -/

/-- JSON values with integer numbers. -/
inductive JVal where
  | jnull : JVal
  | jbool : Bool → JVal
  | jnum : Int → JVal
  | jstr : List Char → JVal
  | jarr : List JVal → JVal
  | jobj : List (List Char × JVal) → JVal

/-- The opening brace character (written via its code point). -/
def lbrace : Char := Char.ofNat 123

/-- The closing brace character (written via its code point). -/
def rbrace : Char := Char.ofNat 125

/-- Decimal digit character for a value `0 ≤ d ≤ 9`. -/
def digitChar (d : Nat) : Char := Char.ofNat (48 + d)

/-- Decimal digit rendering, accumulator form with explicit fuel (the
fuel is always sufficient when it exceeds the number). -/
def natDigitsAux : Nat → Nat → List Char → List Char
  | 0, _, acc => acc
  | fuel + 1, n, acc =>
    if n < 10 then digitChar (n % 10) :: acc
    else natDigitsAux fuel (n / 10) (digitChar (n % 10) :: acc)

/-- Decimal digit rendering of a natural number (no leading zeros). -/
def natToDigits (n : Nat) : List Char := natDigitsAux (n + 1) n []

/-- Structural-recursion companion of `natToDigits`, convenient for
proofs. -/
def natRepr (n : Nat) : List Char :=
  if n < 10 then [digitChar (n % 10)]
  else natRepr (n / 10) ++ [digitChar (n % 10)]
decreasing_by exact Nat.div_lt_self (by omega) (by omega)

/-- Python `repr` of an integer: optional minus sign, then decimal
digits. -/
def intToChars (i : Int) : List Char :=
  if i < 0 then '-' :: natToDigits i.natAbs else natToDigits i.toNat

/-- Lower-case hexadecimal digit character for `0 ≤ d ≤ 15`. -/
def hexChar (d : Nat) : Char :=
  if d < 10 then Char.ofNat (48 + d) else Char.ofNat (97 + (d - 10))

/-- Four-digit hexadecimal rendering used by `\uXXXX` escapes. -/
def hex4 (n : Nat) : List Char :=
  [hexChar (n / 4096 % 16), hexChar (n / 256 % 16), hexChar (n / 16 % 16), hexChar (n % 16)]

/-- Escape one character the way `json.dumps` (with its default
`ensure_ascii=True`) renders string contents. -/
def escapeChar (c : Char) : List Char :=
  if c = dquote then [bslash, dquote]
  else if c = bslash then [bslash, bslash]
  else if c = '\n' then [bslash, 'n']
  else if c = '\t' then [bslash, 't']
  else if c = '\r' then [bslash, 'r']
  else if c = '\x08' then [bslash, 'b']
  else if c = '\x0c' then [bslash, 'f']
  else if c.toNat < 32 then [bslash, 'u'] ++ hex4 c.toNat
  else if c.toNat ≤ 126 then [c]
  else if c.toNat ≤ 65535 then [bslash, 'u'] ++ hex4 c.toNat
  else
    [bslash, 'u'] ++ hex4 (55296 + (c.toNat - 65536) / 1024) ++
      [bslash, 'u'] ++ hex4 (56320 + (c.toNat - 65536) % 1024)

/-- Escape a whole string body. -/
def escapeStr (s : List Char) : List Char := (s.map escapeChar).flatten

mutual

/-- Minified serialization, as `json.dumps(v, separators=(',', ':'))`
produces it. -/
def dumpJ : JVal → List Char
  | .jnull => ['n', 'u', 'l', 'l']
  | .jbool true => ['t', 'r', 'u', 'e']
  | .jbool false => ['f', 'a', 'l', 's', 'e']
  | .jnum i => intToChars i
  | .jstr s => dquote :: (escapeStr s ++ [dquote])
  | .jarr vs => '[' :: (dumpElems vs ++ [']'])
  | .jobj ms => lbrace :: (dumpMembers ms ++ [rbrace])

/-- Comma-separated serialization of array elements. -/
def dumpElems : List JVal → List Char
  | [] => []
  | [v] => dumpJ v
  | v :: w :: rest => dumpJ v ++ ',' :: dumpElems (w :: rest)

/-- Comma-separated serialization of object members (`"key":value`). -/
def dumpMembers : List (List Char × JVal) → List Char
  | [] => []
  | [(k, v)] => dquote :: (escapeStr k ++ dquote :: ':' :: dumpJ v)
  | (k, v) :: m :: rest =>
    (dquote :: (escapeStr k ++ dquote :: ':' :: dumpJ v)) ++ ',' :: dumpMembers (m :: rest)

end

/-- JSON insignificant whitespace (space, tab, newline, carriage
return), as skipped by the decoder. -/
def jsonWsB (c : Char) : Bool := c = ' ' || c = '\t' || c = '\n' || c = '\r'

/-- Skip insignificant whitespace. -/
def skipWs (s : List Char) : List Char := s.dropWhile jsonWsB

/-- Decimal digit test. -/
def isDigitB (c : Char) : Bool := 48 ≤ c.toNat && c.toNat ≤ 57

/-- Numeric value of a list of decimal digit characters. -/
def digitsVal (ds : List Char) : Nat := ds.foldl (fun a c => 10 * a + (c.toNat - 48)) 0

/-- Parse an unsigned JSON integer: a single `0`, or a nonzero digit
followed by further digits (the decoder's no-leading-zero rule). -/
def parseUNum : List Char → Option (Nat × List Char)
  | [] => none
  | c :: r =>
    if c = '0' then some (0, r)
    else if isDigitB c then
      let ds := (c :: r).takeWhile isDigitB
      some (digitsVal ds, (c :: r).drop ds.length)
    else none

/-- Parse a JSON integer with optional leading minus sign. -/
def parseNum : List Char → Option (Int × List Char)
  | [] => none
  | c :: r =>
    if c = '-' then
      match parseUNum r with
      | some (n, rest) => some (-(n : Int), rest)
      | none => none
    else
      match parseUNum (c :: r) with
      | some (n, rest) => some ((n : Int), rest)
      | none => none

/-- Inverse of the named backslash escapes accepted by the decoder. -/
def unescapeChar (e : Char) : Option Char :=
  if e = dquote then some dquote
  else if e = bslash then some bslash
  else if e = '/' then some '/'
  else if e = 'b' then some '\x08'
  else if e = 'f' then some '\x0c'
  else if e = 'n' then some '\n'
  else if e = 'r' then some '\r'
  else if e = 't' then some '\t'
  else none

/-- Value of one hexadecimal digit character. -/
def hexVal (c : Char) : Option Nat :=
  if 48 ≤ c.toNat ∧ c.toNat ≤ 57 then some (c.toNat - 48)
  else if 97 ≤ c.toNat ∧ c.toNat ≤ 102 then some (c.toNat - 87)
  else if 65 ≤ c.toNat ∧ c.toNat ≤ 70 then some (c.toNat - 55)
  else none

/-- Parse a JSON string body after the opening quote, up to and
including the closing quote; rejects raw control characters (the
decoder's strict mode) and invalid escapes. -/
def parseStrBody : List Char → Option (List Char × List Char)
  | [] => none
  | c :: rest =>
    if c = dquote then some ([], rest)
    else if c = bslash then
      match rest with
      | [] => none
      | e :: rest2 =>
        if e = 'u' then
          match rest2 with
          | h1 :: h2 :: h3 :: h4 :: rest3 =>
            match hexVal h1, hexVal h2, hexVal h3, hexVal h4 with
            | some a, some b, some d, some e4 =>
              let n := 4096 * a + 256 * b + 16 * d + e4
              if n.isValidChar then
                match parseStrBody rest3 with
                | some (s, r) => some (Char.ofNat n :: s, r)
                | none => none
              else none
            | _, _, _, _ => none
          | _ => none
        else
          match unescapeChar e with
          | some c2 =>
            match parseStrBody rest2 with
            | some (s, r) => some (c2 :: s, r)
            | none => none
          | none => none
    else if c.toNat < 32 then none
    else
      match parseStrBody rest with
      | some (s, r) => some (c :: s, r)
      | none => none

mutual

/-- Fuel-indexed recursive-descent parser for a JSON value (the
`json.loads` collaborator, modelled from the spec; the fuel only bounds
nesting and is always sufficient at the top level). -/
def parseVal : Nat → List Char → Option (JVal × List Char)
  | 0, _ => none
  | f + 1, s =>
    match s with
    | [] => none
    | c :: rest =>
      if c = 'n' then
        match rest with
        | 'u' :: 'l' :: 'l' :: r => some (.jnull, r)
        | _ => none
      else if c = 't' then
        match rest with
        | 'r' :: 'u' :: 'e' :: r => some (.jbool true, r)
        | _ => none
      else if c = 'f' then
        match rest with
        | 'a' :: 'l' :: 's' :: 'e' :: r => some (.jbool false, r)
        | _ => none
      else if c = dquote then
        match parseStrBody rest with
        | some (str, r) => some (.jstr str, r)
        | none => none
      else if c = '[' then
        match skipWs rest with
        | ']' :: r => some (.jarr [], r)
        | t =>
          match parseElems f t with
          | some (vs, r) => some (.jarr vs, r)
          | none => none
      else if c = lbrace then
        match skipWs rest with
        | r0 =>
          if r0.head? = some rbrace then some (.jobj [], r0.tail)
          else
            match parseMembers f r0 with
            | some (ms, r) => some (.jobj ms, r)
            | none => none
      else if c = '-' || isDigitB c then
        match parseNum (c :: rest) with
        | some (i, r) => some (.jnum i, r)
        | none => none
      else none

/-- Parse one or more comma-separated array elements up to the closing
bracket. -/
def parseElems : Nat → List Char → Option (List JVal × List Char)
  | 0, _ => none
  | f + 1, s =>
    match parseVal f s with
    | some (v, r) =>
      match skipWs r with
      | ',' :: r3 =>
        match parseElems f (skipWs r3) with
        | some (vs, r4) => some (v :: vs, r4)
        | none => none
      | ']' :: r3 => some ([v], r3)
      | _ => none
    | none => none

/-- Parse one or more comma-separated object members up to the closing
brace. -/
def parseMembers : Nat → List Char → Option (List (List Char × JVal) × List Char)
  | 0, _ => none
  | f + 1, s =>
    match s with
    | c :: rest =>
      if c = dquote then
        match parseStrBody rest with
        | some (k, r1) =>
          match skipWs r1 with
          | ':' :: r2 =>
            match parseVal f (skipWs r2) with
            | some (v, r3) =>
              match skipWs r3 with
              | ',' :: r4 =>
                match parseMembers f (skipWs r4) with
                | some (ms, r5) => some ((k, v) :: ms, r5)
                | none => none
              | d :: r4 =>
                if d = rbrace then some ([(k, v)], r4) else none
              | [] => none
            | none => none
          | _ => none
        | none => none
      else none
    | [] => none

end

/-- Top-level `json.loads` model: skip surrounding whitespace and
require the whole input to be consumed. -/
def jloads (s : List Char) : Option JVal :=
  match parseVal (2 * s.length + 2) (skipWs s) with
  | some (v, r) => if skipWs r = [] then some v else none
  | none => none

/-- `optimize_json_code` from the source: minify valid JSON by parse
and re-serialize; on parse failure fall back to the generic transform
with comment preservation hardcoded off. -/
def optimize_json_code (content : List Char) : List Char :=
  match jloads content with
  | some v => dumpJ v
  | none => optimize_generic_code content false

/-! ## Python optimizer (`optimize_python_code`, source lines 218-279)

Line-oriented state machine over the lines of the file, with a
two-state multi-line-string tracker, plus the per-line regex transforms
applied to NORMAL lines.  `re.sub(r'\s*TOK\s*', 'TOK', line)` is
reproduced by a left-to-right scan: since `TOK` starts with a
non-whitespace character, the regex matches at a position exactly when
`TOK` follows the maximal whitespace run there, and the replacement
consumes that run, the token, and the maximal following run. -/

/-- One `re.sub(r'\s*TOK\s*', 'TOK', s)` pass for a token `t0 :: ts`
whose first character is not whitespace. -/
def subAround (t0 : Char) (ts : List Char) (s : List Char) : List Char :=
  match s with
  | [] => []
  | c :: rest =>
    let afterWs := (c :: rest).dropWhile wsB
    if List.isPrefixOf (t0 :: ts) afterWs then
      (t0 :: ts) ++ subAround t0 ts ((afterWs.drop (ts.length + 1)).dropWhile wsB)
    else
      c :: subAround t0 ts rest
termination_by s.length
decreasing_by
  all_goals simp_wf
  · have h1 : ((c :: rest).dropWhile wsB).length ≤ rest.length + 1 := by
      simpa using (@List.dropWhile_sublist _ (c :: rest) wsB).length_le
    have h2 : (((c :: rest).dropWhile wsB).drop (ts.length + 1)).length =
        ((c :: rest).dropWhile wsB).length - (ts.length + 1) := List.length_drop _ _
    have h3 : ((((c :: rest).dropWhile wsB).drop (ts.length + 1)).dropWhile wsB).length ≤
        (((c :: rest).dropWhile wsB).drop (ts.length + 1)).length :=
      (List.dropWhile_sublist wsB).length_le
    omega

/-- The eleven sequential operator-spacing passes of
`optimize_python_code` (`=`, `+`, `-`, `*`, `/`, `<`, `>`, `==`, `!=`,
`<=`, `>=`, in source order). -/
def pyOperatorPasses (l : List Char) : List Char :=
  subAround '>' ['='] (subAround '<' ['='] (subAround '!' ['='] (subAround '=' ['=']
    (subAround '>' [] (subAround '<' [] (subAround '/' [] (subAround '*' []
      (subAround '-' [] (subAround '+' [] (subAround '=' [] l))))))))))

/-- Python `str.replace('    ', ' ')`: left-to-right non-overlapping
replacement of four spaces by one. -/
def replace4 : List Char → List Char
  | ' ' :: ' ' :: ' ' :: ' ' :: rest => ' ' :: replace4 rest
  | c :: rest => c :: replace4 rest
  | [] => []

/-- The NORMAL-state transform of one line: operator-spacing passes,
then indentation re-expression (leading whitespace of the original
line, tabs turned into single spaces, four-space groups collapsed,
prepended to the stripped transformed line). -/
def pyTransformLine (line : List Char) : List Char :=
  let l := pyOperatorPasses line
  let indent := line.takeWhile wsB
  let indent2 := indent.map (fun c => if c = '\t' then ' ' else c)
  let level := (replace4 indent2).length
  List.replicate level ' ' ++ pyStrip l

/-- The triple double-quote delimiter. -/
def dq3 : List Char := [dquote, dquote, dquote]

/-- The triple single-quote delimiter. -/
def sq3 : List Char := [squote, squote, squote]

/-- Does the line contain either triple-quote delimiter
(`'\x22\x22\x22' in line or "'''" in line`)? -/
def hasTriple (line : List Char) : Bool := hasSub dq3 line || hasSub sq3 line

/-- State of the multi-line-string tracker: the `in_multiline_string`
flag and the recorded opening delimiter (`string_delimiter`, `none`
before any string was seen). -/
structure PyState where
  inML : Bool
  delim : Option (List Char)

/-- Does the recorded delimiter occur in the line
(`string_delimiter in line`)?  Unreachable with `delim = none` while
`inML` is set, mirroring the source's invariant. -/
def delimIn (st : PyState) (line : List Char) : Bool :=
  match st.delim with
  | some d => hasSub d line
  | none => false

/-- One iteration of the `optimize_python_code` loop body: the next
state and the line emitted for this input line, if any. -/
def pyLineStep (preserve_comments preserve_docstrings : Bool) (st : PyState)
    (line : List Char) : PyState × Option (List Char) :=
  let stripped := pyStrip line
  if hasTriple line then
    if !st.inML then
      let d := if hasSub dq3 line then dq3 else sq3
      (⟨true, some d⟩, if preserve_docstrings then some line else none)
    else if delimIn st line then
      (⟨false, st.delim⟩, if preserve_docstrings then some line else none)
    else if st.inML then
      (st, if preserve_docstrings then some line else none)
    else
      pyNormalBody preserve_comments st line stripped
  else if st.inML then
    (st, if preserve_docstrings then some line else none)
  else
    pyNormalBody preserve_comments st line stripped
where
  /-- The NORMAL-state tail of the loop body: drop blank lines, drop
  comment lines unless preserved, otherwise emit the transformed
  line. -/
  pyNormalBody (preserve_comments : Bool) (st : PyState) (line stripped : List Char) :
      PyState × Option (List Char) :=
    if stripped = [] then (st, none)
    else if List.isPrefixOf ['#'] stripped && !preserve_comments then (st, none)
    else (st, some (pyTransformLine line))

/-- Run the loop over all lines from a given state, collecting the
emitted lines. -/
def pyProcess (preserve_comments preserve_docstrings : Bool) (st : PyState) :
    List (List Char) → List (List Char)
  | [] => []
  | l :: ls =>
    match pyLineStep preserve_comments preserve_docstrings st l with
    | (st2, some out) => out :: pyProcess preserve_comments preserve_docstrings st2 ls
    | (st2, none) => pyProcess preserve_comments preserve_docstrings st2 ls

/-- `optimize_python_code` from the source: split into lines, run the
state machine from NORMAL with no recorded delimiter, join the emitted
lines. -/
def optimize_python_code (content : List Char)
    (preserve_comments preserve_docstrings : Bool) : List Char :=
  List.intercalate ['\n']
    (pyProcess preserve_comments preserve_docstrings ⟨false, none⟩ (content.splitOn '\n'))

/-! ## Aggressive optimization (`aggressive_space_optimization`,
source lines 400-408) -/

/-- `re.sub(r'\s+', ' ', s)`: replace every maximal whitespace run by a
single space. -/
def collapseWs : List Char → List Char
  | [] => []
  | c :: rest =>
    if wsB c then ' ' :: collapseWs (rest.dropWhile wsB)
    else c :: collapseWs rest
termination_by s => s.length
decreasing_by
  all_goals simp_wf
  · have h1 : (rest.dropWhile wsB).length ≤ rest.length :=
      (List.dropWhile_sublist wsB).length_le
    omega

/-- The punctuation class of the level-3 pass: `{ } ( ) ; , :`. -/
def punctB (c : Char) : Bool :=
  c = lbrace || c = rbrace || c = '(' || c = ')' || c = ';' || c = ',' || c = ':'

/-- `re.sub(r'\s*([{}();,:])\s*', r'\1', s)`: drop the whitespace
around each punctuation character (as with `subAround`, a match sits
exactly where a punctuation character follows the maximal whitespace
run). -/
def tightenPunct : List Char → List Char
  | [] => []
  | c :: rest =>
    match h : (c :: rest).dropWhile wsB with
    | p :: tail =>
      if punctB p then p :: tightenPunct (tail.dropWhile wsB)
      else c :: tightenPunct rest
    | [] => c :: tightenPunct rest
termination_by s => s.length
decreasing_by
  all_goals simp_wf
  · have h1 : ((c :: rest).dropWhile wsB).length ≤ rest.length + 1 := by
      simpa using (@List.dropWhile_sublist _ (c :: rest) wsB).length_le
    have h2 : (tail.dropWhile wsB).length ≤ tail.length :=
      (List.dropWhile_sublist wsB).length_le
    rw [h] at h1
    simp only [List.length_cons] at h1
    omega

/-- `aggressive_space_optimization` from the source: the two level-3
regex passes, applied only for the allow-listed extensions `.json`,
`.css`, `.scss`; all other extensions pass through unchanged. -/
def aggressive_space_optimization (content : List Char) (file_ext : String) : List Char :=
  if file_ext = ".json" || file_ext = ".css" || file_ext = ".scss" then
    tightenPunct (collapseWs content)
  else content

/-! ## File Selector (`is_binary_file`, `should_include_file`,
`walk_repository`, source lines 469-487 and 539-631)

The filesystem is a tree of directories and file metadata.  A file's
interaction with the OS is captured by `FileInfo`: `statSize` is `none`
when `Path.stat` raises (e.g. a broken symlink), `readBytes` is `none`
when opening/reading raises and otherwise records whether the first
8 KiB decode as UTF-8; `mimeTextLike` is the `mimetypes.guess_type`
collaborator's verdict that the guessed type starts with a text-like
prefix.  `should_include_file` returns `Except Unit Bool`: `.error ()`
models an uncaught Python exception propagating out of the function. -/

/-- Metadata of one file as the script's probes observe it. -/
structure FileInfo where
  name : String
  statSize : Option Nat
  mimeTextLike : Bool
  readBytes : Option Bool

/-- `is_binary_file` from the source: trust a text-like mimetype;
otherwise read the first chunk (any exception means "binary") and test
UTF-8 decodability. -/
def is_binary_file (fi : FileInfo) : Bool :=
  if fi.mimeTextLike then false
  else
    match fi.readBytes with
    | some decodable => !decodable
    | none => true

/-- The selection-relevant command-line arguments. -/
structure Args where
  excludeDirs : List String
  excludeFiles : List String
  maxFileSize : Nat
  includeExtensions : List String
  excludeExtensions : List String

/-- `pathlib.PurePath.suffix`: the final dotted component of the name,
empty when the dot is missing, leading, or trailing. -/
def pySuffix (name : List Char) : List Char :=
  let sufR := name.reverse.takeWhile (fun c => c ≠ '.')
  if 0 < sufR.length ∧ sufR.length + 1 < name.length then '.' :: sufR.reverse
  else []

/-- The lower-cased suffix of a file name (`path.suffix.lower()`). -/
def extOf (name : String) : String :=
  String.mk ((pySuffix name.toList).map Char.toLower)

/-- POSIX rendering of a path given as segments. -/
def pathStr (segs : List String) : String := String.intercalate "/" segs

/-- `os.path.join(rel_root, d)` as `walk_repository` computes it: the
root of the walk has `rel_root = "."`. -/
def dirPathStr (relSegs : List String) (d : String) : String :=
  if relSegs.isEmpty then "./" ++ d else pathStr relSegs ++ "/" ++ d

/-- `should_include_file` from the source, over a path given as
segments (`segs` is the joined walk path, so `Path(file_path).parts`
are exactly the segments and `Path(file_path).name` the last one).
`.error ()` marks the uncaught exception of `path.stat()` on a file
that reaches the size check but cannot be stat'ed. -/
def should_include_file (segs : List String) (fi : FileInfo) (A : Args)
    (ignore_patterns : List String) : Except Unit Bool :=
  if path_matches_pattern (pathStr segs) ignore_patterns then .ok false
  else if segs.any (fun part => A.excludeDirs.contains part) then .ok false
  else if A.excludeFiles.contains fi.name then .ok false
  else
    match fi.statSize with
    | none => .error ()
    | some sz =>
      if sz > A.maxFileSize then .ok false
      else
        let ext := extOf fi.name
        if !A.includeExtensions.isEmpty && !A.includeExtensions.contains ext then .ok false
        else if A.excludeExtensions.contains ext then .ok false
        else if is_binary_file fi then .ok false
        else .ok true

/-- A directory tree: the files of this directory and the named
subdirectories, in listing order. -/
inductive FSTree where
  | node : List FileInfo → List (String × FSTree) → FSTree

/-- The files of a directory node. -/
def FSTree.files : FSTree → List FileInfo
  | .node fs _ => fs

/-- The subdirectories of a directory node. -/
def FSTree.dirs : FSTree → List (String × FSTree)
  | .node _ ds => ds

/-- The per-file loop of `walk_repository` over one directory's files:
admitted paths in order, or the first uncaught exception. -/
def walkFiles (A : Args) (ps : List String) (absSegs : List String) :
    List FileInfo → Except Unit (List String)
  | [] => .ok []
  | fi :: rest =>
    match should_include_file (absSegs ++ [fi.name]) fi A ps with
    | .error e => .error e
    | .ok inc =>
      match walkFiles A ps absSegs rest with
      | .error e => .error e
      | .ok others =>
        .ok (if inc then pathStr (absSegs ++ [fi.name]) :: others else others)

/-- The directory recursion of `walk_repository`: prune a subdirectory
when its name is excluded or its walk-relative path matches an ignore
pattern; otherwise admit its files and recurse, preserving `os.walk`'s
top-down order. -/
def walkDirs (A : Args) (ps : List String) (rootSegs relSegs : List String) :
    List (String × FSTree) → Except Unit (List String)
  | [] => .ok []
  | (d, FSTree.node files dirs) :: rest =>
    if A.excludeDirs.contains d || path_matches_pattern (dirPathStr relSegs d) ps then
      walkDirs A ps rootSegs relSegs rest
    else
      match walkFiles A ps (rootSegs ++ relSegs ++ [d]) files with
      | .error e => .error e
      | .ok mine =>
        match walkDirs A ps rootSegs (relSegs ++ [d]) dirs with
        | .error e => .error e
        | .ok sub =>
          match walkDirs A ps rootSegs relSegs rest with
          | .error e => .error e
          | .ok more => .ok (mine ++ sub ++ more)

/-- `walk_repository` from the source: the top directory's files, then
the pruned recursive walk of its subdirectories. -/
def walk_repository (A : Args) (ps : List String) (rootSegs : List String)
    (t : FSTree) : Except Unit (List String) :=
  match walkFiles A ps rootSegs t.files with
  | .error e => .error e
  | .ok mine =>
    match walkDirs A ps rootSegs [] t.dirs with
    | .error e => .error e
    | .ok sub => .ok (mine ++ sub)

/-! ## Auxiliary predicates used by the statements -/

/-- In-order concatenation of a list of strings. -/
def strConcat (rs : List String) : String := rs.foldr (fun a b => a ++ b) ""

/-- No two adjacent whitespace characters. -/
def noDoubleWs : List Char → Bool
  | a :: b :: t => !(wsB a && wsB b) && noDoubleWs (b :: t)
  | _ => true

/-- An adjacent pair is acceptable after level-3 optimization: no
whitespace next to whitespace and no whitespace next to punctuation. -/
def adjOk (a b : Char) : Bool :=
  !(wsB a && wsB b) && !(wsB a && punctB b) && !(punctB a && wsB b)

/-- All adjacent pairs are acceptable. -/
def adjAllOk : List Char → Bool
  | a :: b :: t => adjOk a b && adjAllOk (b :: t)
  | _ => true

/-- String characters covered by the JSON round-trip statement:
printable ASCII (escaped characters included). -/
def wfStrB (s : List Char) : Bool := s.all (fun c => 32 ≤ c.toNat && c.toNat ≤ 126)

mutual

/-- Well-formed JSON value for the round-trip statement: all string
contents (keys included) are printable ASCII. -/
def wfJB : JVal → Bool
  | .jnull => true
  | .jbool _ => true
  | .jnum _ => true
  | .jstr s => wfStrB s
  | .jarr vs => wfArrB vs
  | .jobj ms => wfObjB ms

/-- Well-formedness of array elements. -/
def wfArrB : List JVal → Bool
  | [] => true
  | v :: rest => wfJB v && wfArrB rest

/-- Well-formedness of object members. -/
def wfObjB : List (List Char × JVal) → Bool
  | [] => true
  | (k, v) :: rest => wfStrB k && wfJB v && wfObjB rest

end

mutual

/-- Parser-fuel weight of a JSON value. -/
def sizeJ : JVal → Nat
  | .jnull => 1
  | .jbool _ => 1
  | .jnum _ => 1
  | .jstr _ => 1
  | .jarr vs => 1 + sizeArr vs
  | .jobj ms => 1 + sizeObj ms

/-- Parser-fuel weight of array elements. -/
def sizeArr : List JVal → Nat
  | [] => 0
  | v :: rest => sizeJ v + 1 + sizeArr rest

/-- Parser-fuel weight of object members. -/
def sizeObj : List (List Char × JVal) → Nat
  | [] => 0
  | (_, v) :: rest => sizeJ v + 1 + sizeObj rest

end

/-- The continuation after a serialized number never starts with a
digit (it is empty or starts with a separator). -/
def numBoundary : List Char → Bool
  | [] => true
  | c :: _ => !isDigitB c

/-- Structural size of a forest of subdirectories (used for
induction over the walk). -/
def forestSize : List (String × FSTree) → Nat
  | [] => 0
  | (_, FSTree.node _ dirs) :: rest => 1 + forestSize dirs + forestSize rest

/-- Every file in a forest of subdirectories can be stat'ed. -/
def statsOkDirs : List (String × FSTree) → Bool
  | [] => true
  | (_, FSTree.node files dirs) :: rest =>
    files.all (fun fi => fi.statSize.isSome) && statsOkDirs dirs && statsOkDirs rest

/-- Every file in the tree can be stat'ed. -/
def statsOk : FSTree → Bool
  | .node fs ds => fs.all (fun fi => fi.statSize.isSome) && statsOkDirs ds

/-! ## Theorems -/

/-- C9: the pattern matcher returns true for a path and pattern set iff
at least one pattern glob-matches the whole path as a flat string; in
particular `**/logs/**` matches `src/logs/debug.txt` and does not match
`src/logging/debug.txt` (flat-string matching, not per-segment). -/
theorem c9_pattern_matcher :
    (∀ (path : String) (patterns : List String),
      path_matches_pattern path patterns = true ↔
        ∃ pat ∈ patterns, globMatch pat.toList path.toList = true) ∧
    path_matches_pattern "src/logs/debug.txt" ["**/logs/**"] = true ∧
    path_matches_pattern "src/logging/debug.txt" ["**/logs/**"] = false := by
  refine ⟨fun path patterns => ?_, by decide, by decide⟩
  simp [path_matches_pattern, List.any_eq_true]

/-- Closed form of the accumulation loop with chunking disabled. -/
theorem processChunks_zero (cur : String) (rs : List String) :
    processChunks 0 cur rs =
      if cur ++ strConcat rs = "" then [] else [cur ++ strConcat rs] := by
  induction rs generalizing cur with
  | nil => simp [processChunks, strConcat]
  | cons r rest ih =>
    simp only [processChunks, Nat.lt_irrefl, if_false, gt_iff_lt]
    rw [ih (cur ++ r)]
    simp [strConcat, String.append_assoc]

/-- C8 (amended): with a chunk bound of 0 the assembler produces at
most one chunk, and exactly one — the whole accumulated output — as
soon as that output is nonempty.  (A run whose accumulated output is
empty, e.g. a repository with no admitted files and no header, produces
zero chunks, which is the one exception to the claimed invariant.) -/
theorem c8_zero_bound (rs : List String) :
    (processChunks 0 "" rs).length ≤ 1 ∧
    (strConcat rs ≠ "" → processChunks 0 "" rs = [strConcat rs]) := by
  have h := processChunks_zero "" rs
  rw [show ("" : String) ++ strConcat rs = strConcat rs by simp] at h
  rw [h]
  constructor
  · split <;> simp
  · intro hne
    simp [hne]

/-- Witness for C8 at a concrete record stream. -/
theorem c8_zero_bound_witness :
    strConcat ["a", "b"] ≠ "" ∧ processChunks 0 "" ["a", "b"] = [strConcat ["a", "b"]] :=
  ⟨by decide, (c8_zero_bound ["a", "b"]).2 (by decide)⟩

/-- C8 counterexample: with bound 0 and an empty record stream (a
repository with no admitted files, no header) the assembler produces
zero chunks, not exactly one. -/
theorem c8_counterexample :
    processChunks 0 "" [] = [] ∧ (processChunks 0 "" []).length ≠ 1 :=
  ⟨rfl, by decide⟩

/-- Concatenating the emitted chunks reproduces the accumulator plus
all records, for any bound. -/
theorem processChunks_concat (B : Nat) (cur : String) (rs : List String) :
    strConcat (processChunks B cur rs) = cur ++ strConcat rs := by
  induction rs generalizing cur with
  | nil =>
    by_cases h : cur = ""
    · simp [processChunks, strConcat, h]
    · simp [processChunks, strConcat, h]
  | cons r rest ih =>
    simp only [processChunks]
    by_cases hB : B > 0
    · simp only [hB, if_true]
      by_cases hs : cur.length + r.length > B
      · simp only [hs, if_true]
        show strConcat (cur :: processChunks B r rest) = _
        simp only [strConcat, List.foldr] at ih ⊢
        rw [ih r]
      · simp only [hs, if_false]
        rw [ih (cur ++ r)]
        simp [strConcat, String.append_assoc]
    · simp only [hB, if_false]
      rw [ih (cur ++ r)]
      simp [strConcat, String.append_assoc]

/-- Every chunk the loop emits is bounded by `max B M` whenever every
record is bounded by `M`, the accumulator is bounded by `max B M`, and
the bound is positive. -/
theorem processChunks_size_bound (B M : Nat) (cur : String) (rs : List String)
    (hM : ∀ r ∈ rs, r.length ≤ M) (hcur : cur.length ≤ Nat.max B M) (hB : 0 < B) :
    ∀ c ∈ processChunks B cur rs, c.length ≤ Nat.max B M := by
  induction rs generalizing cur with
  | nil =>
    intro c hc
    simp only [processChunks] at hc
    split at hc
    · simp at hc
    · simp only [List.mem_singleton] at hc
      exact hc ▸ hcur
  | cons r rest ih =>
    intro c hc
    simp only [processChunks, if_pos hB] at hc
    by_cases hs : cur.length + r.length > B
    · rw [if_pos hs] at hc
      rcases List.mem_cons.mp hc with hceq | hmem
      · exact hceq ▸ hcur
      · refine ih r (fun x hx => hM x (List.mem_cons_of_mem _ hx)) ?_ c hmem
        exact le_trans (hM r (List.mem_cons_self _ _)) (Nat.le_max_right _ _)
    · rw [if_neg hs] at hc
      refine ih (cur ++ r) (fun x hx => hM x (List.mem_cons_of_mem _ hx)) ?_ c hc
      rw [String.length_append]
      exact le_trans (Nat.le_of_not_lt hs) (Nat.le_max_left _ _)

/-- Every record is bounded by the maximal record length. -/
theorem le_maxRecLen {rs : List String} {r : String} (h : r ∈ rs) :
    r.length ≤ maxRecLen rs := by
  induction rs with
  | nil => simp at h
  | cons a l ih =>
    simp only [maxRecLen, List.foldr]
    rcases List.mem_cons.mp h with rfl | hm
    · exact Nat.le_max_left _ _
    · exact le_trans (ih hm) (Nat.le_max_right _ _)

/-- C3: for every record sequence and bound `B > 0`, every emitted
chunk has size at most `B` plus the size of the largest single record
(a record larger than `B` is flushed as its own chunk), and the
in-order concatenation of all chunks equals the bound-0 output on the
same records. -/
theorem c3_chunking (rs : List String) (B : Nat) (hB : 0 < B) :
    (∀ c ∈ processChunks B "" rs, c.length ≤ B + maxRecLen rs) ∧
    strConcat (processChunks B "" rs) = strConcat (processChunks 0 "" rs) := by
  constructor
  · intro c hc
    have h1 := processChunks_size_bound B (maxRecLen rs) "" rs
      (fun r hr => le_maxRecLen hr) (by simp) hB c hc
    have h2 : Nat.max B (maxRecLen rs) ≤ B + maxRecLen rs :=
      Nat.max_le.mpr ⟨Nat.le_add_right _ _, Nat.le_add_left _ _⟩
    omega
  · rw [processChunks_concat, processChunks_concat]

/-- Witness for C3 at a concrete record stream and bound. -/
theorem c3_chunking_witness :
    0 < 5 ∧ ("aaa" : String).length ≤ 5 + maxRecLen ["aaa", "bbbbbbbb"] ∧
    strConcat (processChunks 5 "" ["aaa", "bbbbbbbb"]) =
      strConcat (processChunks 0 "" ["aaa", "bbbbbbbb"]) :=
  ⟨by decide, (c3_chunking ["aaa", "bbbbbbbb"] 5 (by decide)).1 "aaa" (by decide),
    (c3_chunking ["aaa", "bbbbbbbb"] 5 (by decide)).2⟩

/-- Whitespace characters are never in the level-3 punctuation
class. -/
theorem punct_not_ws {c : Char} (h : wsB c = true) : punctB c = false := by
  simp only [wsB, Bool.or_eq_true, decide_eq_true_eq] at h
  rcases h with ((((rfl | rfl) | rfl) | rfl) | rfl) | rfl <;> decide

/-- The head surviving `dropWhile` fails the predicate. -/
theorem dropWhile_head_false {p : Char → Bool} {s : List Char} {c : Char} {t : List Char}
    (h : s.dropWhile p = c :: t) : p c = false := by
  induction s with
  | nil => simp at h
  | cons a l ih =>
    rw [List.dropWhile_cons] at h
    split at h
    · exact ih h
    · cases h
      simp_all

/-- `collapseWs` on the empty list. -/
theorem collapseWs_nil : collapseWs [] = [] := by rw [collapseWs]

/-- `tightenPunct` on the empty list. -/
theorem tightenPunct_nil : tightenPunct [] = [] := by rw [tightenPunct]

/-- Unfolding `collapseWs` on a non-whitespace head. -/
theorem collapseWs_cons_not_ws {c : Char} (h : wsB c = false) (rest : List Char) :
    collapseWs (c :: rest) = c :: collapseWs rest := by
  rw [collapseWs, if_neg (by simp [h])]

/-- Unfolding `collapseWs` on a whitespace head. -/
theorem collapseWs_cons_ws {c : Char} (h : wsB c = true) (rest : List Char) :
    collapseWs (c :: rest) = ' ' :: collapseWs (rest.dropWhile wsB) := by
  rw [collapseWs, if_pos h]

/-- A pair whose second character is not whitespace is never a double
whitespace. -/
theorem noDoubleWs_cons_cons_of_snd {a b : Char} {t : List Char} (hb : wsB b = false)
    (h : noDoubleWs (b :: t) = true) : noDoubleWs (a :: b :: t) = true := by
  simp [noDoubleWs, hb, h]

/-- Prepending a non-whitespace character preserves `noDoubleWs`. -/
theorem noDoubleWs_cons_of {c : Char} {l : List Char} (hc : wsB c = false)
    (hl : noDoubleWs l = true) : noDoubleWs (c :: l) = true := by
  cases l with
  | nil => rfl
  | cons b t => simp [noDoubleWs, hc, hl]

/-- `noDoubleWs` passes to the tail. -/
theorem noDoubleWs_tail {c : Char} {l : List Char}
    (h : noDoubleWs (c :: l) = true) : noDoubleWs l = true := by
  cases l with
  | nil => rfl
  | cons b t =>
    simp only [noDoubleWs, Bool.and_eq_true] at h
    exact h.2

/-- `noDoubleWs` survives `dropWhile`. -/
theorem noDoubleWs_dropWhile {p : Char → Bool} {l : List Char}
    (h : noDoubleWs l = true) : noDoubleWs (l.dropWhile p) = true := by
  induction l with
  | nil => exact h
  | cons a t ih =>
    rw [List.dropWhile_cons]
    split
    · exact ih (noDoubleWs_tail h)
    · exact h

/-- The first regex pass of level 3 leaves no two adjacent whitespace
characters. -/
theorem noDoubleWs_collapseWs (s : List Char) : noDoubleWs (collapseWs s) = true := by
  generalize hn : s.length = n
  induction n using Nat.strong_induction_on generalizing s with
  | _ n ih =>
    match s, hn with
    | [], _ => rw [collapseWs_nil]; rfl
    | c :: rest, hn =>
      by_cases hc : wsB c = true
      · rw [collapseWs_cons_ws hc]
        have hlen : (rest.dropWhile wsB).length < n := by
          have := (@List.dropWhile_sublist _ rest wsB).length_le
          subst hn
          simp only [List.length_cons]
          omega
        have hrec := ih _ hlen (rest.dropWhile wsB) rfl
        match hY : rest.dropWhile wsB, hrec with
        | [], _ => rw [collapseWs_nil]; rfl
        | y :: ys, hrec =>
          have hy : wsB y = false := dropWhile_head_false hY
          rw [collapseWs_cons_not_ws hy] at hrec ⊢
          exact noDoubleWs_cons_cons_of_snd hy hrec
      · rw [collapseWs_cons_not_ws (by simpa using hc)]
        have hlen : rest.length < n := by subst hn; simp
        exact noDoubleWs_cons_of (by simpa using hc) (ih _ hlen rest rfl)

/-- Unfolding `tightenPunct` on a non-whitespace head. -/
theorem tightenPunct_cons_not_ws {c : Char} (h : wsB c = false) (rest : List Char) :
    tightenPunct (c :: rest) =
      if punctB c then c :: tightenPunct (rest.dropWhile wsB)
      else c :: tightenPunct rest := by
  rw [tightenPunct]
  have hdw : (c :: rest).dropWhile wsB = c :: rest := by
    rw [List.dropWhile_cons, if_neg (by simp [h])]
  split
  · next p tail hm =>
    rw [hdw] at hm
    cases hm
    rfl
  · next hm =>
    rw [hdw] at hm
    cases hm

/-- The head of `tightenPunct` on a non-whitespace head is that
character. -/
theorem tightenPunct_head_not_ws {c : Char} (h : wsB c = false) (rest : List Char) :
    ∃ t, tightenPunct (c :: rest) = c :: t := by
  rw [tightenPunct_cons_not_ws h]
  split
  · exact ⟨_, rfl⟩
  · exact ⟨_, rfl⟩

/-- Prepending a character to an `adjAllOk` list stays `adjAllOk` when
the new adjacent pair is acceptable. -/
theorem adjAllOk_cons_of {c : Char} {l : List Char}
    (hpair : ∀ x t, l = x :: t → adjOk c x = true)
    (hl : adjAllOk l = true) : adjAllOk (c :: l) = true := by
  cases l with
  | nil => rfl
  | cons b t => simp [adjAllOk, hpair b t rfl, hl]

/-- A non-whitespace, non-punctuation character forms an acceptable
pair with anything. -/
theorem adjOk_of_plain {c x : Char} (h1 : wsB c = false) (h2 : punctB c = false) :
    adjOk c x = true := by
  simp [adjOk, h1, h2]

/-- Unfolding `tightenPunct` on a lone whitespace character. -/
theorem tightenPunct_ws_nil {c : Char} (hc : wsB c = true) :
    tightenPunct [c] = [c] := by
  have hdw : ([c]).dropWhile wsB = [] := by
    rw [List.dropWhile_cons, if_pos hc, List.dropWhile_nil]
  rw [tightenPunct]
  split
  · next p tail hm =>
    rw [hdw] at hm
    cases hm
  · rw [tightenPunct_nil]

/-- Unfolding `tightenPunct` on a whitespace character followed by a
non-whitespace one. -/
theorem tightenPunct_ws_cons {c y : Char} (hc : wsB c = true) (hy : wsB y = false)
    (ys : List Char) :
    tightenPunct (c :: y :: ys) =
      if punctB y then y :: tightenPunct (ys.dropWhile wsB)
      else c :: tightenPunct (y :: ys) := by
  have hdw : (c :: y :: ys).dropWhile wsB = y :: ys := by
    rw [List.dropWhile_cons, if_pos hc, List.dropWhile_cons, if_neg (by simp [hy])]
  rw [tightenPunct]
  split
  · next p tail hm =>
    rw [hdw] at hm
    injection hm with h1 h2
    subst h1
    subst h2
    rfl
  · next hm =>
    rw [hdw] at hm
    cases hm

/-- Adjacent whitespace is excluded right after a whitespace head. -/
theorem noDoubleWs_ws_head {c y : Char} {ys : List Char}
    (h : noDoubleWs (c :: y :: ys) = true) (hc : wsB c = true) : wsB y = false := by
  simp only [noDoubleWs, Bool.and_eq_true] at h
  simpa [hc] using h.1

/-- The second regex pass of level 3, applied after the first, leaves
no whitespace adjacent to whitespace or punctuation. -/
theorem adjAllOk_tightenPunct (s : List Char) (hs : noDoubleWs s = true) :
    adjAllOk (tightenPunct s) = true := by
  generalize hn : s.length = n
  induction n using Nat.strong_induction_on generalizing s with
  | _ n ih =>
    match s, hn with
    | [], _ => rw [tightenPunct_nil]; rfl
    | c :: rest, hn =>
      by_cases hc : wsB c = true
      · cases rest with
        | nil => rw [tightenPunct_ws_nil hc]; rfl
        | cons y ys =>
          have hy : wsB y = false := noDoubleWs_ws_head hs hc
          rw [tightenPunct_ws_cons hc hy]
          by_cases hp : punctB y = true
          · rw [if_pos hp]
            have hZlen : (ys.dropWhile wsB).length < n := by
              have := (@List.dropWhile_sublist _ ys wsB).length_le
              subst hn
              simp only [List.length_cons]
              omega
            have hZnd : noDoubleWs (ys.dropWhile wsB) = true :=
              noDoubleWs_dropWhile (noDoubleWs_tail (noDoubleWs_tail hs))
            have hT := ih _ hZlen (ys.dropWhile wsB) hZnd rfl
            refine adjAllOk_cons_of ?_ hT
            intro x t hxt
            match hZ : ys.dropWhile wsB, hxt with
            | [], hxt => rw [tightenPunct_nil] at hxt; cases hxt
            | z :: zs, hxt =>
              have hz : wsB z = false := dropWhile_head_false hZ
              obtain ⟨t2, ht2⟩ := tightenPunct_head_not_ws hz zs
              rw [ht2] at hxt
              injection hxt with h1 _
              subst h1
              simp [adjOk, hy, hz]
          · rw [if_neg hp]
            have hlen : (y :: ys).length < n := by subst hn; simp
            have hT := ih _ hlen (y :: ys) (noDoubleWs_tail hs) rfl
            refine adjAllOk_cons_of ?_ hT
            intro x t hxt
            obtain ⟨t2, ht2⟩ := tightenPunct_head_not_ws hy ys
            rw [ht2] at hxt
            injection hxt with h1 _
            subst h1
            simp only [Bool.not_eq_true] at hp
            simp [adjOk, hc, hy, hp, punct_not_ws hc]
      · replace hc : wsB c = false := by simpa using hc
        rw [tightenPunct_cons_not_ws hc]
        by_cases hp : punctB c = true
        · rw [if_pos hp]
          have hZlen : (rest.dropWhile wsB).length < n := by
            have := (@List.dropWhile_sublist _ rest wsB).length_le
            subst hn
            simp only [List.length_cons]
            omega
          have hT := ih _ hZlen (rest.dropWhile wsB)
            (noDoubleWs_dropWhile (noDoubleWs_tail hs)) rfl
          refine adjAllOk_cons_of ?_ hT
          intro x t hxt
          match hZ : rest.dropWhile wsB, hxt with
          | [], hxt => rw [tightenPunct_nil] at hxt; cases hxt
          | z :: zs, hxt =>
            have hz : wsB z = false := dropWhile_head_false hZ
            obtain ⟨t2, ht2⟩ := tightenPunct_head_not_ws hz zs
            rw [ht2] at hxt
            injection hxt with h1 _
            subst h1
            simp [adjOk, hc, hz]
        · rw [if_neg hp]
          have hlen : rest.length < n := by subst hn; simp
          have hT := ih _ hlen rest (noDoubleWs_tail hs) rfl
          refine adjAllOk_cons_of ?_ hT
          intro x t hxt
          simp only [Bool.not_eq_true] at hp
          exact adjOk_of_plain hc hp

/-- C7 (amended): level-3 aggressive optimization applies exactly to
the `.json`, `.css`, `.scss` allow-list — on those, the result has no
two adjacent whitespace characters and no whitespace adjacent to any of
`{ } ( ) ; , :`; every other extension (in particular `.py`, but also
the stylesheet-family `.sass`) passes through unchanged. -/
theorem c7_aggressive_allow_list :
    (∀ (content : List Char) (ext : String),
      ext ≠ ".json" → ext ≠ ".css" → ext ≠ ".scss" →
        aggressive_space_optimization content ext = content) ∧
    (∀ content : List Char,
      adjAllOk (aggressive_space_optimization content ".json") = true ∧
      adjAllOk (aggressive_space_optimization content ".css") = true ∧
      adjAllOk (aggressive_space_optimization content ".scss") = true) := by
  constructor
  · intro content ext h1 h2 h3
    simp [aggressive_space_optimization, h1, h2, h3]
  · intro content
    refine ⟨?_, ?_, ?_⟩ <;>
      simpa [aggressive_space_optimization] using
        adjAllOk_tightenPunct _ (noDoubleWs_collapseWs content)

/-- Witness for C7 at a concrete input: `.py` content is untouched and
`.json` content is fully tightened. -/
theorem c7_aggressive_allow_list_witness :
    aggressive_space_optimization ("a  b".toList) ".py" = "a  b".toList ∧
    adjAllOk (aggressive_space_optimization ("x :  1".toList) ".json") = true :=
  ⟨c7_aggressive_allow_list.1 ("a  b".toList) ".py" (by decide) (by decide) (by decide),
    (c7_aggressive_allow_list.2 ("x :  1".toList)).1⟩

/-- C7 counterexample: `.sass` belongs to the spec's stylesheet family,
yet level 3 leaves its content unchanged — the double space survives,
so whitespace runs are not collapsed for it. -/
theorem c7_counterexample :
    aggressive_space_optimization ("a  b".toList) ".sass" = "a  b".toList ∧
    noDoubleWs ("a  b".toList) = false := by
  constructor
  · simp [aggressive_space_optimization]
  · decide

/-- C10: on JSON parse failure, `optimize_json_code` invokes the
generic transform with comment preservation hardcoded to `false`; in
particular a leading `#` line of a malformed `.json` file is dropped,
though the generic transform with preservation on would have kept
it. -/
theorem c10_json_fallback_comments :
    (∀ content : List Char, jloads content = none →
      optimize_json_code content = optimize_generic_code content false) ∧
    optimize_json_code ("# note\nnot json".toList) = "not json".toList ∧
    optimize_generic_code ("# note\nnot json".toList) true = "# note\nnot json".toList := by
  refine ⟨fun content h => ?_, by decide, by decide⟩
  simp [optimize_json_code, h]

/-- Witness for C10 at a concrete malformed input. -/
theorem c10_json_fallback_comments_witness :
    jloads ("not json".toList) = none ∧
    optimize_json_code ("not json".toList) =
      optimize_generic_code ("not json".toList) false :=
  ⟨rfl, c10_json_fallback_comments.1 ("not json".toList) rfl⟩

/-- With docstring preservation off, a line processed inside a
multi-line string, or one containing a triple-quote delimiter, emits
nothing. -/
theorem pyLineStep_false_none {pc : Bool} {st : PyState} {line : List Char}
    (h : st.inML = true ∨ hasTriple line = true) :
    (pyLineStep pc false st line).2 = none := by
  rcases h with hin | htr
  · simp only [pyLineStep]
    split_ifs <;> simp_all [pyLineStep.pyNormalBody]
  · simp only [pyLineStep, htr, if_true]
    split_ifs <;> simp_all [pyLineStep.pyNormalBody]

/-- With docstring preservation off, an emitted line always comes from
the NORMAL branch: the source line has no triple-quote delimiter, the
machine was outside any multi-line string, and the emitted text is the
transformed source line. -/
theorem pyLineStep_false_some {pc : Bool} {st : PyState} {l o : List Char}
    (h : (pyLineStep pc false st l).2 = some o) :
    hasTriple l = false ∧ st.inML = false ∧ o = pyTransformLine l := by
  by_cases htr : hasTriple l = true
  · rw [pyLineStep_false_none (Or.inr htr)] at h
    cases h
  · by_cases hin : st.inML = true
    · rw [pyLineStep_false_none (Or.inl hin)] at h
      cases h
    · simp only [Bool.not_eq_true] at htr hin
      refine ⟨htr, hin, ?_⟩
      simp only [pyLineStep, htr, hin, Bool.false_eq_true, if_false,
        pyLineStep.pyNormalBody] at h
      split_ifs at h <;> simp_all

/-- With docstring preservation on, any line containing a triple-quote
delimiter (in particular every line that toggles the state machine) is
emitted verbatim. -/
theorem pyLineStep_true_triple {pc : Bool} {st : PyState} {l : List Char}
    (h : hasTriple l = true) :
    (pyLineStep pc true st l).2 = some l := by
  simp only [pyLineStep, h, if_true]
  split_ifs <;> simp_all [pyLineStep.pyNormalBody]

/-- Run-level form: with preservation off, every emitted line is the
NORMAL-branch transform of some source line without a triple-quote
delimiter. -/
theorem pyProcess_false_mem {pc : Bool} {st : PyState} {ls : List (List Char)}
    {out : List Char} (h : out ∈ pyProcess pc false st ls) :
    ∃ l ∈ ls, hasTriple l = false ∧ out = pyTransformLine l := by
  induction ls generalizing st with
  | nil => simp [pyProcess] at h
  | cons l rest ih =>
    rw [pyProcess] at h
    rcases hstep : pyLineStep pc false st l with ⟨st2, o⟩
    rw [hstep] at h
    cases o with
    | none =>
      obtain ⟨l2, hm, hp⟩ := ih h
      exact ⟨l2, List.mem_cons_of_mem _ hm, hp⟩
    | some o2 =>
      rcases List.mem_cons.mp h with rfl | hmem
      · have hsome : (pyLineStep pc false st l).2 = some out := by rw [hstep]
        obtain ⟨htr, _, ho⟩ := pyLineStep_false_some hsome
        exact ⟨l, List.mem_cons_self _ _, htr, ho⟩
      · obtain ⟨l2, hm, hp⟩ := ih hmem
        exact ⟨l2, List.mem_cons_of_mem _ hm, hp⟩

/-- Run-level form: with preservation on, every source line containing
a triple-quote delimiter appears verbatim in the output. -/
theorem pyProcess_true_triple_mem {pc : Bool} {st : PyState} {ls : List (List Char)}
    {l : List Char} (hmem : l ∈ ls) (htr : hasTriple l = true) :
    l ∈ pyProcess pc true st ls := by
  induction ls generalizing st with
  | nil => simp at hmem
  | cons a rest ih =>
    rw [pyProcess]
    rcases List.mem_cons.mp hmem with rfl | hmem2
    · rcases hstep : pyLineStep pc true st l with ⟨st2, o⟩
      have ho : o = some l := by
        have := @pyLineStep_true_triple pc st l htr
        rw [hstep] at this
        exact this
      subst ho
      exact List.mem_cons_self _ _
    · rcases hstep : pyLineStep pc true st a with ⟨st2, o⟩
      cases o with
      | none => exact ih hmem2
      | some o2 => exact List.mem_cons_of_mem _ (ih hmem2)

/-- C2: with `preserve_docstrings = false` the Python state machine
emits nothing for a line inside a multi-line-string region (nor for a
delimiter line), so every emitted line stems from a NORMAL line without
a triple quote; with `preserve_docstrings = true` every line containing
a triple-quote delimiter — in particular every line that toggles the
state between NORMAL and IN_MULTILINE_STRING — appears verbatim in the
output.  `optimize_python_code` is exactly this machine run over the
split lines. -/
theorem c2_python_docstring_machine :
    (∀ (pc : Bool) (st : PyState) (line : List Char),
      st.inML = true ∨ hasTriple line = true →
        (pyLineStep pc false st line).2 = none) ∧
    (∀ (pc : Bool) (st : PyState) (ls : List (List Char)) (out : List Char),
      out ∈ pyProcess pc false st ls →
        ∃ l ∈ ls, hasTriple l = false ∧ out = pyTransformLine l) ∧
    (∀ (pc : Bool) (st : PyState) (ls : List (List Char)) (l : List Char),
      l ∈ ls → hasTriple l = true → l ∈ pyProcess pc true st ls) ∧
    (∀ (content : List Char) (pc pd : Bool),
      optimize_python_code content pc pd =
        List.intercalate ['\n'] (pyProcess pc pd ⟨false, none⟩ (content.splitOn '\n'))) :=
  ⟨fun _ _ _ h => pyLineStep_false_none h,
   fun _ _ _ _ h => pyProcess_false_mem h,
   fun _ _ _ _ hm ht => pyProcess_true_triple_mem hm ht,
   fun _ _ _ => rfl⟩

/-- Witness for C2 at concrete lines: a line inside a docstring emits
nothing with preservation off, an ordinary line's emission is traced to
itself, and a delimiter line survives with preservation on. -/
theorem c2_python_docstring_machine_witness :
    (pyLineStep true false ⟨true, some dq3⟩ ['x']).2 = none ∧
    (∃ l ∈ [['x']], hasTriple l = false ∧ pyTransformLine ['x'] = pyTransformLine l) ∧
    dq3 ∈ pyProcess false true ⟨false, none⟩ [dq3, ['d'], dq3] := by
  have hmem : pyTransformLine ['x'] ∈ pyProcess false false ⟨false, none⟩ [['x']] := by
    have h : pyProcess false false ⟨false, none⟩ [['x']] = [pyTransformLine ['x']] := rfl
    rw [h]
    exact List.mem_singleton_self _
  exact ⟨c2_python_docstring_machine.1 true ⟨true, some dq3⟩ ['x'] (Or.inl rfl),
    c2_python_docstring_machine.2.1 false ⟨false, none⟩ [['x']] (pyTransformLine ['x']) hmem,
    c2_python_docstring_machine.2.2.1 false ⟨false, none⟩ [dq3, ['d'], dq3] dq3
      (by simp) (by decide)⟩

/-- A read failure (no mimetype rescue) classifies the file as
binary. -/
theorem is_binary_file_read_failure {fi : FileInfo} (h1 : fi.mimeTextLike = false)
    (h2 : fi.readBytes = none) : is_binary_file fi = true := by
  simp [is_binary_file, h1, h2]

/-- When the stat probe succeeds, `should_include_file` never raises:
it returns a boolean verdict (read failures included). -/
theorem should_include_file_stat_ok {segs : List String} {fi : FileInfo} {A : Args}
    {ps : List String} (h : fi.statSize.isSome = true) :
    ∃ b, should_include_file segs fi A ps = .ok b := by
  obtain ⟨sz, hsz⟩ := Option.isSome_iff_exists.mp h
  simp only [should_include_file, hsz]
  split_ifs <;> exact ⟨_, rfl⟩

/-- A file that stats but cannot be read is always rejected. -/
theorem should_include_file_read_failure {segs : List String} {fi : FileInfo} {A : Args}
    {ps : List String} {sz : Nat} (hsz : fi.statSize = some sz)
    (hmime : fi.mimeTextLike = false) (hread : fi.readBytes = none) :
    should_include_file segs fi A ps = .ok false := by
  have hb := is_binary_file_read_failure hmime hread
  simp only [should_include_file, hsz, hb]
  split_ifs <;> rfl

/-- A file that passes the pattern, directory and name checks but
cannot be stat'ed makes `should_include_file` raise. -/
theorem should_include_file_stat_failure {segs : List String} {fi : FileInfo} {A : Args}
    {ps : List String}
    (h1 : path_matches_pattern (pathStr segs) ps = false)
    (h2 : segs.any (fun part => A.excludeDirs.contains part) = false)
    (h3 : A.excludeFiles.contains fi.name = false)
    (h4 : fi.statSize = none) :
    should_include_file segs fi A ps = .error () := by
  have h2a : ¬∃ x ∈ segs, x ∈ A.excludeDirs := by simpa using h2
  have h3a : fi.name ∉ A.excludeFiles := by simpa using h3
  simp [should_include_file, h1, h2a, h3a, h4]

/-- The per-file loop returns a verdict list whenever all stats
succeed. -/
theorem walkFiles_ok {A : Args} {ps absSegs : List String} {fs : List FileInfo}
    (h : fs.all (fun fi => fi.statSize.isSome) = true) :
    ∃ S, walkFiles A ps absSegs fs = .ok S := by
  induction fs with
  | nil => exact ⟨[], rfl⟩
  | cons fi rest ih =>
    simp only [List.all_cons, Bool.and_eq_true] at h
    obtain ⟨b, hb⟩ :=
      @should_include_file_stat_ok (absSegs ++ [fi.name]) fi A ps h.1
    obtain ⟨S, hS⟩ := ih h.2
    refine ⟨if b then pathStr (absSegs ++ [fi.name]) :: S else S, ?_⟩
    rw [walkFiles, hb, hS]

/-- The directory walk returns an admitted list whenever all stats in
the forest succeed. -/
theorem walkDirs_ok {A : Args} {ps rootSegs : List String} :
    ∀ (n : Nat) (ds : List (String × FSTree)) (relSegs : List String),
      forestSize ds ≤ n → statsOkDirs ds = true →
      ∃ S, walkDirs A ps rootSegs relSegs ds = .ok S := by
  intro n
  induction n with
  | zero =>
    intro ds relSegs hn hok
    match ds with
    | [] => exact ⟨[], by rw [walkDirs]⟩
    | (d, FSTree.node files dirs) :: rest => simp [forestSize] at hn
  | succ n ih =>
    intro ds relSegs hn hok
    match ds with
    | [] => exact ⟨[], by rw [walkDirs]⟩
    | (d, FSTree.node files dirs) :: rest =>
      simp only [forestSize] at hn
      simp only [statsOkDirs, Bool.and_eq_true] at hok
      by_cases hp :
          (A.excludeDirs.contains d ||
            path_matches_pattern (dirPathStr relSegs d) ps) = true
      · obtain ⟨S, hS⟩ := ih rest relSegs (by omega) hok.2
        refine ⟨S, ?_⟩
        rw [walkDirs, if_pos hp, hS]
      · obtain ⟨mine, hmine⟩ :=
          @walkFiles_ok A ps (rootSegs ++ relSegs ++ [d]) files
            hok.1.1
        obtain ⟨sub, hsub⟩ := ih dirs (relSegs ++ [d]) (by omega) hok.1.2
        obtain ⟨more, hmore⟩ := ih rest relSegs (by omega) hok.2
        refine ⟨mine ++ sub ++ more, ?_⟩
        rw [walkDirs, if_neg hp, hmine, hsub, hmore]

/-- C1 (amended): a file that cannot be read is treated as excluded —
`is_binary_file` returns true on a read failure, and
`should_include_file` returns `.ok false` for it, never an exception —
and a traversal over a tree whose files can all be stat'ed always
completes with an admitted list.  A file that fails the earlier checks
but cannot be stat'ed, however, makes `should_include_file` raise
(`.error ()`), which aborts the selection run instead of excluding the
file. -/
theorem c1_failure_semantics :
    (∀ fi : FileInfo, fi.mimeTextLike = false → fi.readBytes = none →
      is_binary_file fi = true) ∧
    (∀ (segs : List String) (fi : FileInfo) (A : Args) (ps : List String),
      fi.statSize.isSome = true →
        ∃ b, should_include_file segs fi A ps = .ok b) ∧
    (∀ (segs : List String) (fi : FileInfo) (A : Args) (ps : List String) (sz : Nat),
      fi.statSize = some sz → fi.mimeTextLike = false → fi.readBytes = none →
        should_include_file segs fi A ps = .ok false) ∧
    (∀ (segs : List String) (fi : FileInfo) (A : Args) (ps : List String),
      path_matches_pattern (pathStr segs) ps = false →
      segs.any (fun part => A.excludeDirs.contains part) = false →
      A.excludeFiles.contains fi.name = false →
      fi.statSize = none →
        should_include_file segs fi A ps = .error ()) ∧
    (∀ (A : Args) (ps rootSegs : List String) (t : FSTree), statsOk t = true →
      ∃ S, walk_repository A ps rootSegs t = .ok S) := by
  refine ⟨fun fi h1 h2 => is_binary_file_read_failure h1 h2,
    fun _ _ _ _ h => should_include_file_stat_ok h,
    fun _ _ _ _ _ hsz hm hr => should_include_file_read_failure hsz hm hr,
    fun _ _ _ _ h1 h2 h3 h4 => should_include_file_stat_failure h1 h2 h3 h4,
    fun A ps rootSegs t hok => ?_⟩
  match t with
  | .node files dirs =>
    simp only [statsOk, Bool.and_eq_true] at hok
    obtain ⟨mine, hmine⟩ := @walkFiles_ok A ps rootSegs files hok.1
    obtain ⟨sub, hsub⟩ :=
      @walkDirs_ok A ps rootSegs (forestSize dirs) dirs []
        (Nat.le_refl _) hok.2
    refine ⟨mine ++ sub, ?_⟩
    simp only [walk_repository, FSTree.files, FSTree.dirs, hmine, hsub]

/-- Witness for C1 at concrete files and a concrete tree. -/
theorem c1_failure_semantics_witness :
    is_binary_file ⟨"u.txt", some 10, false, none⟩ = true ∧
    should_include_file ["repo", "u.txt"] ⟨"u.txt", some 10, false, none⟩
      ⟨[], [], 1000, [], []⟩ [] = .ok false ∧
    should_include_file ["repo", "broken.py"] ⟨"broken.py", none, true, some true⟩
      ⟨[], [], 1000, [], []⟩ [] = .error () ∧
    ∃ S, walk_repository ⟨[], [], 1000, [], []⟩ [] ["repo"]
      (.node [⟨"a.py", some 10, true, some true⟩] []) = .ok S :=
  ⟨c1_failure_semantics.1 _ rfl rfl,
    c1_failure_semantics.2.2.1 ["repo", "u.txt"] _ _ [] 10 rfl rfl rfl,
    c1_failure_semantics.2.2.2.1 ["repo", "broken.py"] _ _ [] (by decide) (by decide)
      (by decide) rfl,
    c1_failure_semantics.2.2.2.2 _ [] ["repo"] _ (by simp [statsOk, statsOkDirs])⟩

/-- C1 counterexample: a file passing the early checks whose stat
probe fails does not yield `.ok false` — `should_include_file` raises,
and the raise propagates out of `walk_repository`, aborting the
selection run before the remaining files are examined. -/
theorem c1_counterexample :
    should_include_file ["repo", "broken.py"] ⟨"broken.py", none, true, some true⟩
        ⟨[], [], 1000, [], []⟩ [] = .error () ∧
    walk_repository ⟨[], [], 1000, [], []⟩ [] ["repo"]
      (.node [⟨"broken.py", none, true, some true⟩,
              ⟨"a.py", some 10, true, some true⟩] []) = .error () := by
  constructor
  · rfl
  · rfl

/-- C6 (amended): with `--include-extensions .py`, a tree containing
`.py`, `.md` and `.png` files admits exactly the `.py` file, for every
extension-exclusion list that does not contain `.py`.  (When the
exclusion list does contain `.py`, the exclusion applies on top of the
inclusion and the file is rejected — see the counterexample.) -/
theorem c6_include_extensions (excludeExts : List String)
    (h : ".py" ∉ excludeExts) :
    walk_repository ⟨[], [], 1000, [".py"], excludeExts⟩ [] ["repo"]
      (.node [⟨"a.py", some 10, true, some true⟩,
              ⟨"b.md", some 10, true, some true⟩,
              ⟨"c.png", some 10, false, some false⟩] []) = .ok ["repo/a.py"] := by
  have he : extOf "a.py" = ".py" := rfl
  simp [walk_repository, walkFiles, walkDirs, should_include_file, path_matches_pattern,
    pathStr, extOf, pySuffix, is_binary_file, FSTree.files, FSTree.dirs, he, h]
  rfl

/-- Witness for C6 with the default-style exclusion list. -/
theorem c6_include_extensions_witness :
    walk_repository ⟨[], [], 1000, [".py"], [".png"]⟩ [] ["repo"]
      (.node [⟨"a.py", some 10, true, some true⟩,
              ⟨"b.md", some 10, true, some true⟩,
              ⟨"c.png", some 10, false, some false⟩] []) = .ok ["repo/a.py"] :=
  c6_include_extensions [".png"] (by decide)

/-- C6 counterexample: the admission of the `.py` file does not hold
regardless of the exclusion list — putting `.py` itself into the
extension-exclusion list rejects the file even though it is in the
include list, so the walk admits nothing. -/
theorem c6_counterexample :
    should_include_file ["repo", "a.py"] ⟨"a.py", some 10, true, some true⟩
      ⟨[], [], 1000, [".py"], [".py"]⟩ [] = .ok false ∧
    walk_repository ⟨[], [], 1000, [".py"], [".py"]⟩ [] ["repo"]
      (.node [⟨"a.py", some 10, true, some true⟩,
              ⟨"b.md", some 10, true, some true⟩,
              ⟨"c.png", some 10, false, some false⟩] []) = .ok [] := by
  constructor
  · rfl
  · simp [walk_repository, walkFiles, walkDirs, should_include_file, path_matches_pattern,
      pathStr, extOf, pySuffix, is_binary_file, FSTree.files, FSTree.dirs]

/-- Adding a pattern preserves any existing match. -/
theorem path_matches_pattern_cons {path p : String} {P : List String}
    (h : path_matches_pattern path P = true) :
    path_matches_pattern path (p :: P) = true := by
  simp only [path_matches_pattern, List.any_cons, Bool.or_eq_true] at *
  exact Or.inr h

/-- A file admitted under the extended pattern set is admitted under
the original one. -/
theorem should_include_file_mono {segs : List String} {fi : FileInfo} {A : Args}
    {p : String} {P : List String}
    (h : should_include_file segs fi A (p :: P) = .ok true) :
    should_include_file segs fi A P = .ok true := by
  have hP : path_matches_pattern (pathStr segs) (p :: P) = false := by
    by_contra hc
    simp only [Bool.not_eq_false] at hc
    simp [should_include_file, hc] at h
  have hP2 : path_matches_pattern (pathStr segs) P = false := by
    by_contra hc
    simp only [Bool.not_eq_false] at hc
    rw [@path_matches_pattern_cons (pathStr segs) p P hc] at hP
    cases hP
  simp only [should_include_file, hP, hP2, Bool.false_eq_true, if_false] at h ⊢
  exact h

/-- Membership in a conditionally extended list. -/
theorem mem_ite_cons {x a : α} {l : List α} {b : Bool} (h : x ∈ l) :
    x ∈ (if b then a :: l else l) := by
  cases b
  · simpa using h
  · simpa using List.mem_cons_of_mem _ h

/-- Per-directory file admission is monotone in the pattern set. -/
theorem walkFiles_mono {A : Args} {absSegs : List String} {p : String} {P : List String} :
    ∀ (fs : List FileInfo) (S S' : List String),
      walkFiles A (p :: P) absSegs fs = .ok S' →
      walkFiles A P absSegs fs = .ok S →
      ∀ x ∈ S', x ∈ S := by
  intro fs
  induction fs with
  | nil =>
    intro S S' h' h
    rw [walkFiles] at h h'
    injection h with h1
    injection h' with h2
    subst h1
    subst h2
    intro x hx
    exact hx
  | cons fi rest ih =>
    intro S S' h' h
    rw [walkFiles] at h h'
    cases hsi' : should_include_file (absSegs ++ [fi.name]) fi A (p :: P) with
    | error e => rw [hsi'] at h'; cases h'
    | ok b' =>
      rw [hsi'] at h'
      cases hrec' : walkFiles A (p :: P) absSegs rest with
      | error e => rw [hrec'] at h'; cases h'
      | ok R' =>
        rw [hrec'] at h'
        cases hsi : should_include_file (absSegs ++ [fi.name]) fi A P with
        | error e => rw [hsi] at h; cases h
        | ok b =>
          rw [hsi] at h
          cases hrec : walkFiles A P absSegs rest with
          | error e => rw [hrec] at h; cases h
          | ok R =>
            rw [hrec] at h
            injection h with hS
            injection h' with hS'
            subst hS
            subst hS'
            have hRR := ih R R' hrec' hrec
            intro x hx
            by_cases hb' : b' = true
            · rw [hb'] at hsi' hx
              simp only [if_true] at hx
              rcases List.mem_cons.mp hx with rfl | hx2
              · have hb : b = true := by
                  have h2 := should_include_file_mono hsi'
                  rw [hsi] at h2
                  exact Except.ok.inj h2
                rw [hb]
                simp
              · exact mem_ite_cons (hRR x hx2)
            · simp only [Bool.not_eq_true] at hb'
              rw [hb'] at hx
              simp only [Bool.false_eq_true, if_false] at hx
              exact mem_ite_cons (hRR x hx)

/-- The directory walk is monotone in the pattern set (over forests of
bounded size). -/
theorem walkDirs_mono {A : Args} {rootSegs : List String} {p : String} {P : List String} :
    ∀ (n : Nat) (ds : List (String × FSTree)) (relSegs : List String)
      (S S' : List String),
      forestSize ds ≤ n →
      walkDirs A (p :: P) rootSegs relSegs ds = .ok S' →
      walkDirs A P rootSegs relSegs ds = .ok S →
      ∀ x ∈ S', x ∈ S := by
  intro n
  induction n with
  | zero =>
    intro ds relSegs S S' hn h' h
    match ds with
    | [] =>
      rw [walkDirs] at h h'
      injection h with h1
      injection h' with h2
      subst h1
      subst h2
      intro x hx
      exact hx
    | (d, FSTree.node files dirs) :: rest => simp [forestSize] at hn
  | succ n ih =>
    intro ds relSegs S S' hn h' h
    match ds with
    | [] =>
      rw [walkDirs] at h h'
      injection h with h1
      injection h' with h2
      subst h1
      subst h2
      intro x hx
      exact hx
    | (d, FSTree.node files dirs) :: rest =>
      simp only [forestSize] at hn
      by_cases hpr :
          (A.excludeDirs.contains d ||
            path_matches_pattern (dirPathStr relSegs d) P) = true
      · have hpr' :
            (A.excludeDirs.contains d ||
              path_matches_pattern (dirPathStr relSegs d) (p :: P)) = true := by
          rcases Bool.or_eq_true .. |>.mp hpr with hd | hm
          · exact Bool.or_eq_true .. |>.mpr (Or.inl hd)
          · exact Bool.or_eq_true .. |>.mpr (Or.inr (path_matches_pattern_cons hm))
        rw [walkDirs, if_pos hpr] at h
        rw [walkDirs, if_pos hpr'] at h'
        exact ih rest relSegs S S' (by omega) h' h
      · rw [walkDirs, if_neg hpr] at h
        cases hm : walkFiles A P (rootSegs ++ relSegs ++ [d]) files with
        | error e => rw [hm] at h; cases h
        | ok mine =>
          rw [hm] at h
          cases hs : walkDirs A P rootSegs (relSegs ++ [d]) dirs with
          | error e => rw [hs] at h; cases h
          | ok sub =>
            rw [hs] at h
            cases hmo : walkDirs A P rootSegs relSegs rest with
            | error e => rw [hmo] at h; cases h
            | ok more =>
              rw [hmo] at h
              injection h with hS
              subst hS
              by_cases hpr' :
                  (A.excludeDirs.contains d ||
                    path_matches_pattern (dirPathStr relSegs d) (p :: P)) = true
              · rw [walkDirs, if_pos hpr'] at h'
                intro x hx
                have hmem := ih rest relSegs more S' (by omega) h' hmo x hx
                simp only [List.mem_append]
                exact Or.inr hmem
              · rw [walkDirs, if_neg hpr'] at h'
                cases hm' : walkFiles A (p :: P) (rootSegs ++ relSegs ++ [d]) files with
                | error e => rw [hm'] at h'; cases h'
                | ok mine' =>
                  rw [hm'] at h'
                  cases hs' : walkDirs A (p :: P) rootSegs (relSegs ++ [d]) dirs with
                  | error e => rw [hs'] at h'; cases h'
                  | ok sub' =>
                    rw [hs'] at h'
                    cases hmo' : walkDirs A (p :: P) rootSegs relSegs rest with
                    | error e => rw [hmo'] at h'; cases h'
                    | ok more' =>
                      rw [hmo'] at h'
                      injection h' with hS'
                      subst hS'
                      intro x hx
                      simp only [List.mem_append] at hx ⊢
                      rcases hx with (hx1 | hx2) | hx3
                      · exact Or.inl (Or.inl (walkFiles_mono files mine mine' hm' hm x hx1))
                      · exact Or.inl (Or.inr
                          (ih dirs (relSegs ++ [d]) sub sub' (by omega) hs' hs x hx2))
                      · exact Or.inr (ih rest relSegs more more' (by omega) hmo' hmo x hx3)

/-- C5: selection is monotone in the ignore-pattern set — whenever the
walks under `P` and under `p :: P` both complete, every file admitted
under the extended set is also admitted under the original one, all
other configuration equal. -/
theorem c5_ignore_monotone (A : Args) (p : String) (P : List String)
    (rootSegs : List String) (t : FSTree) (S S' : List String)
    (h' : walk_repository A (p :: P) rootSegs t = .ok S')
    (h : walk_repository A P rootSegs t = .ok S) :
    ∀ x ∈ S', x ∈ S := by
  match t with
  | .node files dirs =>
    simp only [walk_repository, FSTree.files, FSTree.dirs] at h h'
    cases hm : walkFiles A P rootSegs files with
    | error e => rw [hm] at h; cases h
    | ok mine =>
      rw [hm] at h
      cases hs : walkDirs A P rootSegs [] dirs with
      | error e => rw [hs] at h; cases h
      | ok sub =>
        rw [hs] at h
        injection h with hS
        subst hS
        cases hm' : walkFiles A (p :: P) rootSegs files with
        | error e => rw [hm'] at h'; cases h'
        | ok mine' =>
          rw [hm'] at h'
          cases hs' : walkDirs A (p :: P) rootSegs [] dirs with
          | error e => rw [hs'] at h'; cases h'
          | ok sub' =>
            rw [hs'] at h'
            injection h' with hS'
            subst hS'
            intro x hx
            simp only [List.mem_append] at hx ⊢
            rcases hx with hx1 | hx2
            · exact Or.inl (walkFiles_mono files mine mine' hm' hm x hx1)
            · exact Or.inr
                (walkDirs_mono (forestSize dirs) dirs [] sub sub' (Nat.le_refl _) hs' hs x hx2)

/-- Witness for C5: adding the pattern `*.md` shrinks the admitted set
from both files to just the Python file, and the shrunken set is
contained in the original one. -/
theorem c5_ignore_monotone_witness :
    "repo/a.py" ∈ (["repo/a.py", "repo/b.md"] : List String) := by
  have h' : walk_repository ⟨[], [], 1000, [], []⟩ ["*.md"] ["repo"]
      (.node [⟨"a.py", some 10, true, some true⟩,
              ⟨"b.md", some 10, true, some true⟩] []) = .ok ["repo/a.py"] := by
    simp +decide [walk_repository, walkFiles, walkDirs, should_include_file,
      path_matches_pattern, pathStr, FSTree.files, FSTree.dirs, is_binary_file]
  have h : walk_repository ⟨[], [], 1000, [], []⟩ [] ["repo"]
      (.node [⟨"a.py", some 10, true, some true⟩,
              ⟨"b.md", some 10, true, some true⟩] [])
      = .ok ["repo/a.py", "repo/b.md"] := by
    simp +decide [walk_repository, walkFiles, walkDirs, should_include_file,
      path_matches_pattern, pathStr, FSTree.files, FSTree.dirs, is_binary_file]
  exact c5_ignore_monotone _ "*.md" [] ["repo"] _ _ _ h' h "repo/a.py" (by simp)

/-- `Char.ofNat` round-trips on code points below the surrogate
range. -/
theorem char_toNat_ofNat {n : Nat} (h : n < 55296) : (Char.ofNat n).toNat = n := by
  have hv : n.isValidChar := Or.inl h
  simp [Char.ofNat, hv, Char.ofNatAux, Char.toNat, UInt32.toNat]

/-- Characters with different code points differ. -/
theorem char_ne_of_toNat {c d : Char} (h : c.toNat ≠ d.toNat) : c ≠ d := by
  intro he
  exact h (he ▸ rfl)

/-- Code point of a decimal digit character. -/
theorem digitChar_toNat {d : Nat} (h : d < 10) : (digitChar d).toNat = 48 + d :=
  char_toNat_ofNat (by omega)

/-- Digit characters pass the digit test. -/
theorem isDigitB_digitChar {d : Nat} (h : d < 10) : isDigitB (digitChar d) = true := by
  simp only [isDigitB, digitChar_toNat h]
  simp
  omega

/-- Nonzero digits do not render as `'0'`. -/
theorem digitChar_ne_zero {d : Nat} (h1 : 0 < d) (h2 : d < 10) : digitChar d ≠ '0' := by
  apply char_ne_of_toNat
  rw [digitChar_toNat h2]
  show 48 + d ≠ 48
  omega

/-- The fueled digit renderer agrees with its structural companion
whenever the fuel exceeds the number. -/
theorem natDigitsAux_eq : ∀ (f n : Nat) (acc : List Char), n < f →
    natDigitsAux f n acc = natRepr n ++ acc := by
  intro f
  induction f with
  | zero => intro n acc h; omega
  | succ f ih =>
    intro n acc h
    rw [natDigitsAux]
    by_cases h10 : n < 10
    · rw [if_pos h10, natRepr, if_pos h10]
      simp
    · have hd : n / 10 < n := Nat.div_lt_self (by omega) (by omega)
      rw [if_neg h10, natRepr, if_neg h10, ih (n / 10) (digitChar (n % 10) :: acc) (by omega)]
      simp

/-- `natToDigits` equals the structural renderer. -/
theorem natToDigits_eq (n : Nat) : natToDigits n = natRepr n := by
  simpa using natDigitsAux_eq (n + 1) n [] (by omega)

/-- The structural renderer never produces the empty list. -/
theorem natRepr_ne_nil (n : Nat) : natRepr n ≠ [] := by
  rw [natRepr]
  split
  · simp
  · simp

/-- Every rendered character is a decimal digit. -/
theorem natRepr_all_digits : ∀ (n : Nat), ∀ c ∈ natRepr n, isDigitB c = true := by
  intro n
  induction n using Nat.strong_induction_on with
  | _ n ih =>
    intro c hc
    rw [natRepr] at hc
    split at hc
    · simp only [List.mem_singleton] at hc
      exact hc ▸ isDigitB_digitChar (Nat.mod_lt _ (by omega))
    · rcases List.mem_append.mp hc with hc1 | hc2
      · exact ih (n / 10) (Nat.div_lt_self (by omega) (by omega)) c hc1
      · simp only [List.mem_singleton] at hc2
        exact hc2 ▸ isDigitB_digitChar (Nat.mod_lt _ (by omega))

/-- The leading rendered digit of a positive number is not `'0'`. -/
theorem natRepr_head_ne_zero : ∀ (n : Nat), 0 < n →
    ∀ c cs, natRepr n = c :: cs → c ≠ '0' := by
  intro n
  induction n using Nat.strong_induction_on with
  | _ n ih =>
    intro hn c cs heq
    rw [natRepr] at heq
    split at heq
    · next h10 =>
      injection heq with h1 _
      rw [Nat.mod_eq_of_lt h10] at h1
      exact h1 ▸ digitChar_ne_zero hn h10
    · next h10 =>
      have hne := natRepr_ne_nil (n / 10)
      match hrep : natRepr (n / 10) with
      | [] => exact absurd hrep hne
      | a :: b =>
        rw [hrep] at heq
        simp only [List.cons_append] at heq
        injection heq with h1 _
        exact h1 ▸ ih (n / 10) (Nat.div_lt_self (by omega) (by omega))
          (Nat.div_pos (by omega) (by omega)) a b hrep

/-- Folding the digit accumulator over a rendered number. -/
theorem foldl_natRepr : ∀ (n a : Nat),
    (natRepr n).foldl (fun acc c => 10 * acc + (c.toNat - 48)) a =
      a * 10 ^ (natRepr n).length + n := by
  intro n
  induction n using Nat.strong_induction_on with
  | _ n ih =>
    intro a
    rw [natRepr]
    by_cases h10 : n < 10
    · rw [if_pos h10]
      simp only [List.foldl_cons, List.foldl_nil, List.length_singleton]
      rw [digitChar_toNat (Nat.mod_lt _ (by omega))]
      have : n % 10 = n := Nat.mod_eq_of_lt h10
      simp [this]
      ring
    · rw [if_neg h10]
      rw [List.foldl_append]
      rw [ih (n / 10) (Nat.div_lt_self (by omega) (by omega)) a]
      simp only [List.foldl_cons, List.foldl_nil, List.length_append,
        List.length_singleton]
      rw [digitChar_toNat (Nat.mod_lt _ (by omega))]
      have hmod : 48 + n % 10 - 48 = n % 10 := by omega
      rw [hmod]
      have hdm : 10 * (n / 10) + n % 10 = n := by omega
      ring_nf
      omega

/-- The digit value of a rendered number is the number. -/
theorem digitsVal_natRepr (n : Nat) : digitsVal (natRepr n) = n := by
  have h := foldl_natRepr n 0
  simpa [digitsVal] using h

/-- `takeWhile` runs through a block that satisfies the predicate. -/
theorem takeWhile_append_all {p : Char → Bool} :
    ∀ {xs ys : List Char}, (∀ c ∈ xs, p c = true) →
      (xs ++ ys).takeWhile p = xs ++ ys.takeWhile p := by
  intro xs
  induction xs with
  | nil => intro ys _; rfl
  | cons a l ih =>
    intro ys h
    simp only [List.cons_append, List.takeWhile_cons, h a (List.mem_cons_self _ _), if_true]
    rw [ih (fun c hc => h c (List.mem_cons_of_mem _ hc))]

/-- With a non-digit boundary, `takeWhile` stops exactly at the
digits. -/
theorem takeWhile_digits_boundary {xs rest : List Char}
    (hx : ∀ c ∈ xs, isDigitB c = true) (hb : numBoundary rest = true) :
    (xs ++ rest).takeWhile isDigitB = xs := by
  rw [takeWhile_append_all hx]
  cases rest with
  | nil => simp
  | cons c t =>
    simp only [numBoundary, Bool.not_eq_true'] at hb
    simp [List.takeWhile_cons, hb]

/-- Unsigned number parsing round-trips on rendered numbers. -/
theorem parseUNum_natRepr (n : Nat) (rest : List Char) (hb : numBoundary rest = true) :
    parseUNum (natRepr n ++ rest) = some (n, rest) := by
  by_cases h0 : n = 0
  · subst h0
    have h00 : natRepr 0 = ['0'] := by
      rw [natRepr]
      norm_num
      rfl
    rw [h00]
    simp [parseUNum]
  · have hne := natRepr_ne_nil n
    match hrep : natRepr n with
    | [] => exact absurd hrep hne
    | c :: cs =>
      have hc0 : c ≠ '0' := natRepr_head_ne_zero n (by omega) c cs hrep
      have hcd : isDigitB c = true :=
        natRepr_all_digits n c (hrep ▸ List.mem_cons_self _ _)
      have htw : ((c :: cs) ++ rest).takeWhile isDigitB = c :: cs := by
        refine takeWhile_digits_boundary ?_ hb
        intro x hx
        exact natRepr_all_digits n x (hrep ▸ hx)
      have hdv : digitsVal (c :: cs) = n := by
        rw [← hrep]
        exact digitsVal_natRepr n
      simp only [List.cons_append, parseUNum, if_neg hc0, hcd, if_true]
      simp only [← List.cons_append, htw, hdv]
      congr 1
      rw [List.drop_left]

/-- The head of a rendered integer is a minus sign or a digit, and in
particular none of the other value-start characters. -/
theorem intToChars_head (i : Int) :
    ∃ c cs, intToChars i = c :: cs ∧ (c = '-' ∨ isDigitB c = true) := by
  by_cases hneg : i < 0
  · refine ⟨'-', natToDigits i.natAbs, ?_, Or.inl rfl⟩
    simp [intToChars, hneg]
  · have hne := natRepr_ne_nil i.toNat
    match hrep : natRepr i.toNat with
    | [] => exact absurd hrep hne
    | c :: cs =>
      refine ⟨c, cs, ?_, Or.inr (natRepr_all_digits _ c (hrep ▸ List.mem_cons_self _ _))⟩
      simp [intToChars, hneg, natToDigits_eq, hrep]

/-- Signed number parsing round-trips on rendered integers. -/
theorem parseNum_intToChars (i : Int) (rest : List Char) (hb : numBoundary rest = true) :
    parseNum (intToChars i ++ rest) = some (i, rest) := by
  by_cases hneg : i < 0
  · have habs : -(↑i.natAbs : Int) = i := by omega
    simp only [intToChars, hneg, if_true, natToDigits_eq, List.cons_append]
    have hu := parseUNum_natRepr i.natAbs rest hb
    simp [parseNum, hu, habs]
    rw [abs_of_neg hneg]
    omega
  · obtain ⟨c, cs, heq, hcase⟩ := intToChars_head i
    have heq2 : intToChars i = natRepr i.toNat := by
      simp [intToChars, hneg, natToDigits_eq]
    have hcd : isDigitB c = true := by
      have hcm2 : c ∈ natRepr i.toNat := by
        rw [← heq2, heq]
        exact List.mem_cons_self _ _
      exact natRepr_all_digits _ c hcm2
    have hcm : c ≠ '-' := by
      apply char_ne_of_toNat
      simp only [isDigitB, Bool.and_eq_true, decide_eq_true_eq] at hcd
      show c.toNat ≠ 45
      omega
    have htn : (↑i.toNat : Int) = i := Int.toNat_of_nonneg (by omega)
    have hsplit : intToChars i ++ rest = c :: (cs ++ rest) := by
      rw [heq]
      simp
    have hu : parseUNum (c :: (cs ++ rest)) = some (i.toNat, rest) := by
      rw [← hsplit, heq2]
      exact parseUNum_natRepr i.toNat rest hb
    rw [hsplit]
    simp only [parseNum, if_neg hcm, hu]
    rw [htn]

/-- String-body parsing round-trips on escaped printable-ASCII
strings. -/
theorem parseStrBody_escape : ∀ (s : List Char) (rest : List Char), wfStrB s = true →
    parseStrBody (escapeStr s ++ (dquote :: rest)) = some (s, rest) := by
  intro s
  induction s with
  | nil =>
    intro rest _
    rw [show escapeStr [] = [] from rfl, List.nil_append, parseStrBody.eq_def]
    simp
  | cons c cs ih =>
    intro rest hwf
    simp only [wfStrB, List.all_cons, Bool.and_eq_true, decide_eq_true_eq] at hwf
    obtain ⟨⟨hlo, hhi⟩, hcs⟩ := hwf
    have hcs2 : wfStrB cs = true := hcs
    have hstep : escapeStr (c :: cs) = escapeChar c ++ escapeStr cs := by
      simp [escapeStr]
    rw [hstep, List.append_assoc]
    by_cases hq : c = dquote
    · subst hq
      have hec : escapeChar dquote = [bslash, dquote] := by simp [escapeChar]
      rw [hec]
      simp only [List.cons_append, List.nil_append]
      rw [parseStrBody.eq_def]
      simp +decide [unescapeChar, ih rest hcs2]
    · by_cases hbs : c = bslash
      · subst hbs
        have hec : escapeChar bslash = [bslash, bslash] := by
          simp [escapeChar]
          decide
        rw [hec]
        simp only [List.cons_append, List.nil_append]
        rw [parseStrBody.eq_def]
        simp +decide [unescapeChar, ih rest hcs2]
      · have hnl : c ≠ '\n' := char_ne_of_toNat (by simp; omega)
        have hnt : c ≠ '\t' := char_ne_of_toNat (by simp; omega)
        have hnr : c ≠ '\r' := char_ne_of_toNat (by simp; omega)
        have hnb : c ≠ '\x08' := char_ne_of_toNat (by simp; omega)
        have hnf : c ≠ '\x0c' := char_ne_of_toNat (by simp; omega)
        have hec : escapeChar c = [c] := by
          unfold escapeChar
          rw [if_neg hq, if_neg hbs, if_neg hnl, if_neg hnt, if_neg hnr,
            if_neg hnb, if_neg hnf, if_neg (by omega), if_pos (by omega)]
        rw [hec]
        simp only [List.cons_append, List.nil_append]
        rw [parseStrBody.eq_def]
        simp [hq, hbs, (by omega : ¬c.toNat < 32), ih rest hcs2]
        exact hlo

/-- The serialization of a value is nonempty. -/
theorem dumpJ_ne_nil (v : JVal) : dumpJ v ≠ [] := by
  cases v with
  | jnull => simp [dumpJ]
  | jbool b => cases b <;> simp [dumpJ]
  | jnum i =>
    obtain ⟨c, cs, heq, _⟩ := intToChars_head i
    simp [dumpJ, heq]
  | jstr s => simp [dumpJ]
  | jarr vs => simp [dumpJ]
  | jobj ms => simp [dumpJ]

/-- The first character of a serialization is significant: not JSON
whitespace, not `]`, not `,`, not a closing brace. -/
theorem dumpJ_head_ok (v : JVal) : ∀ c cs, dumpJ v = c :: cs →
    jsonWsB c = false ∧ c ≠ ']' ∧ c ≠ ',' ∧ c ≠ rbrace := by
  cases v with
  | jnull =>
    intro c cs h
    simp only [dumpJ] at h
    injection h with h1 _
    subst h1
    refine ⟨by decide, by decide, by decide, by decide⟩
  | jbool b =>
    intro c cs h
    cases b <;> simp only [dumpJ] at h <;> (injection h with h1 _; subst h1)
    · exact ⟨by decide, by decide, by decide, by decide⟩
    · exact ⟨by decide, by decide, by decide, by decide⟩
  | jnum i =>
    intro c cs h
    simp only [dumpJ] at h
    obtain ⟨c2, cs2, heq, hcase⟩ := intToChars_head i
    rw [heq] at h
    injection h with h1 _
    subst h1
    rcases hcase with rfl | hd
    · exact ⟨by decide, by decide, by decide, by decide⟩
    · simp only [isDigitB, Bool.and_eq_true, decide_eq_true_eq] at hd
      refine ⟨?_, ?_, ?_, ?_⟩
      · simp only [jsonWsB]
        have h1 : c2 ≠ ' ' := char_ne_of_toNat (by simp; omega)
        have h2 : c2 ≠ '\t' := char_ne_of_toNat (by simp; omega)
        have h3 : c2 ≠ '\n' := char_ne_of_toNat (by simp; omega)
        have h4 : c2 ≠ '\r' := char_ne_of_toNat (by simp; omega)
        simp [h1, h2, h3, h4]
      · exact char_ne_of_toNat (by simp; omega)
      · exact char_ne_of_toNat (by simp; omega)
      · apply char_ne_of_toNat
        have : rbrace.toNat = 125 := by decide
        omega
  | jstr s =>
    intro c cs h
    simp only [dumpJ] at h
    injection h with h1 _
    subst h1
    refine ⟨by decide, by decide, by decide, by decide⟩
  | jarr vs =>
    intro c cs h
    simp only [dumpJ] at h
    injection h with h1 _
    subst h1
    refine ⟨by decide, by decide, by decide, by decide⟩
  | jobj ms =>
    intro c cs h
    simp only [dumpJ] at h
    injection h with h1 _
    subst h1
    refine ⟨by decide, by decide, by decide, by decide⟩

/-- `skipWs` does not move over a non-whitespace head. -/
theorem skipWs_cons_not_ws {c : Char} {t : List Char} (h : jsonWsB c = false) :
    skipWs (c :: t) = c :: t := by
  simp [skipWs, List.dropWhile_cons, h]

/-- `skipWs` does not move at the start of a serialized value. -/
theorem skipWs_dump (v : JVal) (rest : List Char) :
    skipWs (dumpJ v ++ rest) = dumpJ v ++ rest := by
  match h : dumpJ v with
  | [] => exact absurd h (dumpJ_ne_nil v)
  | c :: cs =>
    obtain ⟨hws, _, _, _⟩ := dumpJ_head_ok v c cs h
    simp only [List.cons_append]
    exact skipWs_cons_not_ws hws

/-- Every value has positive weight. -/
theorem sizeJ_pos (v : JVal) : 1 ≤ sizeJ v := by
  cases v <;> simp [sizeJ]

/-- The serialization of a nonempty element list starts like the
serialization of its first value. -/
theorem dumpElems_head (v : JVal) (vs : List JVal) :
    ∃ c cs, dumpElems (v :: vs) = c :: cs ∧ jsonWsB c = false ∧ c ≠ ']' := by
  match hd : dumpJ v with
  | [] => exact absurd hd (dumpJ_ne_nil v)
  | c :: cs0 =>
    obtain ⟨hws, hne, _, _⟩ := dumpJ_head_ok v c cs0 hd
    cases vs with
    | nil => exact ⟨c, cs0, by simp [dumpElems, hd], hws, hne⟩
    | cons w ws =>
      refine ⟨c, cs0 ++ ',' :: dumpElems (w :: ws), ?_, hws, hne⟩
      simp [dumpElems, hd]

/-- The serialization of a nonempty member list starts with a
quote. -/
theorem dumpMembers_head (k : List Char) (v : JVal) (ms : List (List Char × JVal)) :
    ∃ cs, dumpMembers ((k, v) :: ms) = dquote :: cs := by
  cases ms with
  | nil =>
    exact ⟨escapeStr k ++ dquote :: ':' :: dumpJ v, by simp [dumpMembers]⟩
  | cons m rest =>
    exact ⟨(escapeStr k ++ dquote :: ':' :: dumpJ v) ++ ',' :: dumpMembers (m :: rest),
      by simp [dumpMembers]⟩

/-- Unfolding well-formedness over a cons of array elements. -/
theorem wfArrB_cons {v : JVal} {vs : List JVal} :
    wfArrB (v :: vs) = true ↔ wfJB v = true ∧ wfArrB vs = true := by
  rw [wfArrB, Bool.and_eq_true]

/-- Unfolding well-formedness over a cons of object members. -/
theorem wfObjB_cons {k : List Char} {v : JVal} {ms : List (List Char × JVal)} :
    wfObjB ((k, v) :: ms) = true ↔
      wfStrB k = true ∧ wfJB v = true ∧ wfObjB ms = true := by
  rw [wfObjB, Bool.and_eq_true, Bool.and_eq_true]
  tauto

/-- Unfolding the weight of a cons of array elements. -/
theorem sizeArr_cons {v : JVal} {vs : List JVal} :
    sizeArr (v :: vs) = sizeJ v + 1 + sizeArr vs := by
  rw [sizeArr]

/-- Unfolding the weight of a cons of object members. -/
theorem sizeObj_cons {k : List Char} {v : JVal} {ms : List (List Char × JVal)} :
    sizeObj ((k, v) :: ms) = sizeJ v + 1 + sizeObj ms := by
  rw [sizeObj]

/-- Start-of-number characters are distinct from the other value
openers. -/
theorem num_head_facts {c : Char} (h : c = '-' ∨ isDigitB c = true) :
    c ≠ 'n' ∧ c ≠ 't' ∧ c ≠ 'f' ∧ c ≠ dquote ∧ c ≠ '[' ∧ c ≠ lbrace ∧
      (c = '-' || isDigitB c) = true := by
  rcases h with rfl | hd
  · exact ⟨by decide, by decide, by decide, by decide, by decide, by decide, by simp⟩
  · have hd2 := hd
    simp only [isDigitB, Bool.and_eq_true, decide_eq_true_eq] at hd2
    refine ⟨char_ne_of_toNat (by simp; omega), char_ne_of_toNat (by simp; omega),
      char_ne_of_toNat (by simp; omega), char_ne_of_toNat ?_, char_ne_of_toNat (by simp; omega),
      char_ne_of_toNat ?_, by simp [hd]⟩
    · have : dquote.toNat = 34 := by decide
      omega
    · have : lbrace.toNat = 123 := by decide
      omega

set_option maxRecDepth 8192 in
/-- The parser, run with sufficient fuel, inverts the minified
serializer on well-formed values (the core of the idempotence
argument). -/
theorem parse_roundtrip : ∀ (fuel : Nat),
    (∀ (v : JVal) (rest : List Char), sizeJ v ≤ fuel → wfJB v = true →
      numBoundary rest = true →
      parseVal fuel (dumpJ v ++ rest) = some (v, rest)) ∧
    (∀ (v : JVal) (vs : List JVal) (rest : List Char), sizeArr (v :: vs) ≤ fuel →
      wfArrB (v :: vs) = true →
      parseElems fuel (dumpElems (v :: vs) ++ ']' :: rest) = some (v :: vs, rest)) ∧
    (∀ (k : List Char) (v : JVal) (ms : List (List Char × JVal)) (rest : List Char),
      sizeObj ((k, v) :: ms) ≤ fuel → wfObjB ((k, v) :: ms) = true →
      parseMembers fuel (dumpMembers ((k, v) :: ms) ++ rbrace :: rest) =
        some ((k, v) :: ms, rest)) := by
  intro fuel
  induction fuel using Nat.strong_induction_on with
  | _ fuel ih =>
    match fuel with
    | 0 =>
      refine ⟨?_, ?_, ?_⟩
      · intro v rest hs _ _
        have := sizeJ_pos v
        omega
      · intro v vs rest hs _
        have := sizeJ_pos v
        rw [sizeArr_cons] at hs
        omega
      · intro k v ms rest hs _
        have := sizeJ_pos v
        rw [sizeObj_cons] at hs
        omega
    | f + 1 =>
      have ihv := (ih f (by omega)).1
      have ihe := (ih f (by omega)).2.1
      have ihm := (ih f (by omega)).2.2
      refine ⟨?_, ?_, ?_⟩
      · intro v rest hs hwf hb
        match v with
        | .jnull => simp +decide [dumpJ, parseVal]
        | .jbool b => cases b <;> simp +decide [dumpJ, parseVal]
        | .jnum i =>
          obtain ⟨c, cs, heq, hcase⟩ := intToChars_head i
          obtain ⟨h1, h2, h3, h4, h5, h6, h7⟩ := num_head_facts hcase
          have hcall : parseNum (c :: (cs ++ rest)) = some (i, rest) := by
            rw [show c :: (cs ++ rest) = intToChars i ++ rest by rw [heq]; simp]
            exact parseNum_intToChars i rest hb
          simp only [dumpJ]
          rw [heq, List.cons_append, parseVal.eq_def]
          simp [h1, h2, h3, h4, h5, h6, h7, hcall]
        | .jstr s =>
          have hwf2 : wfStrB s = true := by simpa [wfJB] using hwf
          simp only [dumpJ, List.cons_append, List.append_assoc, List.singleton_append]
          rw [parseVal.eq_def]
          simp +decide [parseStrBody_escape s rest hwf2]
        | .jarr [] =>
          simp only [dumpJ, dumpElems, List.nil_append, List.cons_append,
            List.singleton_append]
          rw [parseVal.eq_def]
          simp +decide [skipWs]
        | .jarr (v0 :: vs0) =>
          have hsz : sizeArr (v0 :: vs0) ≤ f := by
            simp only [sizeJ] at hs
            omega
          have hwf2 : wfArrB (v0 :: vs0) = true := by rw [wfJB] at hwf; exact hwf
          have helems := ihe v0 vs0 rest hsz hwf2
          obtain ⟨c0, cs0, hd0, hws0, hne0⟩ := dumpElems_head v0 vs0
          have hskip : skipWs (dumpElems (v0 :: vs0) ++ ']' :: rest) =
              dumpElems (v0 :: vs0) ++ ']' :: rest := by
            rw [hd0, List.cons_append]
            exact skipWs_cons_not_ws hws0
          have helems2 : parseElems f (c0 :: (cs0 ++ ']' :: rest)) =
              some (v0 :: vs0, rest) := by
            rw [← List.cons_append, ← hd0]
            exact helems
          have hskip2 : skipWs (c0 :: (cs0 ++ ']' :: rest)) = c0 :: (cs0 ++ ']' :: rest) :=
            skipWs_cons_not_ws hws0
          simp only [dumpJ, List.cons_append, List.append_assoc, List.singleton_append]
          rw [parseVal.eq_def]
          simp +decide [hskip2, hd0, hne0, Ne.symm hne0, helems2]
        | .jobj [] =>
          simp only [dumpJ, dumpMembers, List.nil_append, List.cons_append,
            List.singleton_append]
          rw [parseVal.eq_def]
          simp +decide [skipWs]
        | .jobj ((k, v0) :: ms0) =>
          have hsz : sizeObj ((k, v0) :: ms0) ≤ f := by
            simp only [sizeJ] at hs
            omega
          have hwf2 : wfObjB ((k, v0) :: ms0) = true := by rw [wfJB] at hwf; exact hwf
          have hmems := ihm k v0 ms0 rest hsz hwf2
          obtain ⟨cs0, hd0⟩ := dumpMembers_head k v0 ms0
          have hskip : skipWs (dumpMembers ((k, v0) :: ms0) ++ rbrace :: rest) =
              dumpMembers ((k, v0) :: ms0) ++ rbrace :: rest := by
            rw [hd0, List.cons_append]
            exact skipWs_cons_not_ws (by decide)
          have hmems2 : parseMembers f (dquote :: (cs0 ++ rbrace :: rest)) =
              some ((k, v0) :: ms0, rest) := by
            rw [← List.cons_append, ← hd0]
            exact hmems
          have hskip2 : skipWs (dquote :: (cs0 ++ rbrace :: rest)) =
              dquote :: (cs0 ++ rbrace :: rest) :=
            skipWs_cons_not_ws (by decide)
          simp only [dumpJ, List.cons_append, List.append_assoc, List.singleton_append]
          rw [parseVal.eq_def]
          simp +decide [hskip2, hd0, hmems2]
      · intro v vs rest hs hwf
        rw [sizeArr_cons] at hs
        obtain ⟨hwfv, hwfvs⟩ := wfArrB_cons.mp hwf
        cases vs with
        | nil =>
          have hval := ihv v (']' :: rest) (by omega) hwfv rfl
          have hsk : skipWs (']' :: rest) = ']' :: rest :=
            skipWs_cons_not_ws (by decide)
          simp only [dumpElems]
          rw [parseElems.eq_def]
          simp +decide [hval, hsk]
        | cons w ws =>
          have hszw : sizeArr (w :: ws) ≤ f := by
            have := sizeJ_pos v
            omega
          have hval := ihv v (',' :: (dumpElems (w :: ws) ++ ']' :: rest))
            (by omega) hwfv rfl
          have hrec := ihe w ws rest hszw hwfvs
          obtain ⟨c0, cs0, hd0, hws0, hne0⟩ := dumpElems_head w ws
          have hskip : skipWs (dumpElems (w :: ws) ++ ']' :: rest) =
              dumpElems (w :: ws) ++ ']' :: rest := by
            rw [hd0, List.cons_append]
            exact skipWs_cons_not_ws hws0
          have hsk2 : skipWs (',' :: (dumpElems (w :: ws) ++ ']' :: rest)) =
              ',' :: (dumpElems (w :: ws) ++ ']' :: rest) :=
            skipWs_cons_not_ws (by decide)
          simp only [dumpElems, List.append_assoc, List.cons_append]
          rw [parseElems.eq_def]
          simp +decide [hval, hsk2, hskip, hrec]
      · intro k v ms rest hs hwf
        rw [sizeObj_cons] at hs
        obtain ⟨hwfk, hwfv, hwfm⟩ := wfObjB_cons.mp hwf
        cases ms with
        | nil =>
          have hval := ihv v (rbrace :: rest) (by omega) hwfv rfl
          have hkey := parseStrBody_escape k (':' :: (dumpJ v ++ rbrace :: rest)) hwfk
          have hvskip : skipWs (dumpJ v ++ rbrace :: rest) = dumpJ v ++ rbrace :: rest :=
            skipWs_dump v _
          have hskc : skipWs (':' :: (dumpJ v ++ rbrace :: rest)) =
              ':' :: (dumpJ v ++ rbrace :: rest) :=
            skipWs_cons_not_ws (by decide)
          have hskr : skipWs (rbrace :: rest) = rbrace :: rest :=
            skipWs_cons_not_ws (by decide)
          simp only [dumpMembers, List.cons_append, List.append_assoc,
            List.singleton_append]
          rw [parseMembers.eq_def]
          simp +decide [hkey, hskc, hvskip, hval, hskr]
        | cons m ms0 =>
          obtain ⟨k2, v2⟩ := m
          · have hszm : sizeObj ((k2, v2) :: ms0) ≤ f := by
              have := sizeJ_pos v
              omega
            have hwfm2 : wfObjB ((k2, v2) :: ms0) = true := hwfm
            have hrec := ihm k2 v2 ms0 rest hszm hwfm2
            have hval := ihv v
              (',' :: (dumpMembers ((k2, v2) :: ms0) ++ rbrace :: rest))
              (by omega) hwfv rfl
            have hkey := parseStrBody_escape k
              (':' :: (dumpJ v ++ ',' :: (dumpMembers ((k2, v2) :: ms0) ++ rbrace :: rest)))
              hwfk
            have hvskip : skipWs (dumpJ v ++
                ',' :: (dumpMembers ((k2, v2) :: ms0) ++ rbrace :: rest)) =
                dumpJ v ++ ',' :: (dumpMembers ((k2, v2) :: ms0) ++ rbrace :: rest) :=
              skipWs_dump v _
            obtain ⟨cs0, hd0⟩ := dumpMembers_head k2 v2 ms0
            have hmskip : skipWs (dumpMembers ((k2, v2) :: ms0) ++ rbrace :: rest) =
                dumpMembers ((k2, v2) :: ms0) ++ rbrace :: rest := by
              rw [hd0, List.cons_append]
              exact skipWs_cons_not_ws (by decide)
            have hskc : skipWs (':' :: (dumpJ v ++
                ',' :: (dumpMembers ((k2, v2) :: ms0) ++ rbrace :: rest))) =
                ':' :: (dumpJ v ++
                  ',' :: (dumpMembers ((k2, v2) :: ms0) ++ rbrace :: rest)) :=
              skipWs_cons_not_ws (by decide)
            have hskcm : skipWs (',' :: (dumpMembers ((k2, v2) :: ms0) ++
                rbrace :: rest)) =
                ',' :: (dumpMembers ((k2, v2) :: ms0) ++ rbrace :: rest) :=
              skipWs_cons_not_ws (by decide)
            simp only [dumpMembers, List.cons_append, List.append_assoc,
              List.singleton_append]
            rw [parseMembers.eq_def]
            simp +decide [hkey, hskc, hvskip, hval, hskcm, hmskip, hrec]

/-- The fuel weight of a value is at most twice its serialized
length (so the top-level fuel budget of `jloads` always suffices). -/
theorem sizeJ_le_dump : ∀ (n : Nat) (v : JVal), sizeJ v ≤ n →
    sizeJ v ≤ 2 * (dumpJ v).length := by
  intro n
  induction n using Nat.strong_induction_on with
  | _ n ih =>
    intro v hv
    match v with
    | .jnull => simp [sizeJ, dumpJ]
    | .jbool b => cases b <;> simp [sizeJ, dumpJ]
    | .jnum i =>
      have h1 : 1 ≤ (dumpJ (.jnum i)).length := by
        cases hd : dumpJ (.jnum i) with
        | nil => exact absurd hd (dumpJ_ne_nil _)
        | cons a b => simp
      simp only [sizeJ]
      omega
    | .jstr s =>
      have h1 : 1 ≤ (dumpJ (.jstr s)).length := by
        cases hd : dumpJ (.jstr s) with
        | nil => exact absurd hd (dumpJ_ne_nil _)
        | cons a b => simp
      simp only [sizeJ]
      omega
    | .jarr vs =>
      simp only [sizeJ] at hv ⊢
      have hn1 : 1 ≤ n := by
        omega
      have inner : ∀ vs' : List JVal, sizeArr vs' ≤ sizeArr vs →
          sizeArr vs' ≤ 2 * (dumpElems vs').length + 1 := by
        intro vs'
        induction vs' with
        | nil => intro _; simp [sizeArr, dumpElems]
        | cons w ws ihw =>
          intro hb
          rw [sizeArr_cons] at hb ⊢
          have hwpos := sizeJ_pos w
          have hw : sizeJ w ≤ 2 * (dumpJ w).length :=
            ih (n - 1) (by omega) w (by omega)
          cases ws with
          | nil =>
            rw [show dumpElems [w] = dumpJ w from by rw [dumpElems]]
            rw [show sizeArr ([] : List JVal) = 0 from by rw [sizeArr]]
            omega
          | cons x xs =>
            have hrecb : sizeArr (x :: xs) ≤ sizeArr vs := by omega
            have hrec := ihw hrecb
            rw [show dumpElems (w :: x :: xs) = dumpJ w ++ ',' :: dumpElems (x :: xs)
              from by rw [dumpElems]]
            simp only [List.length_append, List.length_cons]
            omega
      have := inner vs (Nat.le_refl _)
      rw [show dumpJ (.jarr vs) = '[' :: (dumpElems vs ++ [']']) from by rw [dumpJ]]
      simp only [List.length_cons, List.length_append, List.length_singleton]
      omega
    | .jobj ms =>
      simp only [sizeJ] at hv ⊢
      have hn1 : 1 ≤ n := by omega
      have inner : ∀ ms' : List (List Char × JVal), sizeObj ms' ≤ sizeObj ms →
          sizeObj ms' ≤ 2 * (dumpMembers ms').length + 1 := by
        intro ms'
        induction ms' with
        | nil => intro _; simp [sizeObj, dumpMembers]
        | cons m ws ihw =>
          intro hb
          obtain ⟨k, w⟩ := m
          rw [sizeObj_cons] at hb ⊢
          have hwpos := sizeJ_pos w
          have hw : sizeJ w ≤ 2 * (dumpJ w).length :=
            ih (n - 1) (by omega) w (by omega)
          cases ws with
          | nil =>
            rw [show dumpMembers [(k, w)] = dquote :: (escapeStr k ++ dquote :: ':' :: dumpJ w)
              from by rw [dumpMembers]]
            rw [show sizeObj ([] : List (List Char × JVal)) = 0 from by rw [sizeObj]]
            simp only [List.length_cons, List.length_append]
            omega
          | cons x xs =>
            have hrecb : sizeObj (x :: xs) ≤ sizeObj ms := by omega
            have hrec := ihw hrecb
            rw [show dumpMembers ((k, w) :: x :: xs) =
                (dquote :: (escapeStr k ++ dquote :: ':' :: dumpJ w)) ++
                  ',' :: dumpMembers (x :: xs)
              from by rw [dumpMembers]]
            simp only [List.length_append, List.length_cons]
            omega
      have := inner ms (Nat.le_refl _)
      rw [show dumpJ (.jobj ms) = lbrace :: (dumpMembers ms ++ [rbrace]) from by rw [dumpJ]]
      simp only [List.length_cons, List.length_append, List.length_singleton]
      omega

/-- C4: `optimize_json_code` is idempotent on minified valid JSON —
re-optimizing the serialization of any well-formed value returns it
byte-identically — and on any input the parser rejects it never fails,
returning exactly the generic transform of the input. -/
theorem c4_json_idempotent :
    (∀ v : JVal, wfJB v = true → optimize_json_code (dumpJ v) = dumpJ v) ∧
    (∀ content : List Char, jloads content = none →
      optimize_json_code content = optimize_generic_code content false) := by
  constructor
  · intro v hwf
    have hfuel : sizeJ v ≤ 2 * (dumpJ v).length + 2 :=
      le_trans (sizeJ_le_dump (sizeJ v) v (Nat.le_refl _)) (by omega)
    have hrt := (parse_roundtrip (2 * (dumpJ v).length + 2)).1 v [] hfuel hwf rfl
    rw [List.append_nil] at hrt
    have hskip : skipWs (dumpJ v) = dumpJ v := by
      have h := skipWs_dump v []
      rwa [List.append_nil] at h
    have hload : jloads (dumpJ v) = some v := by
      unfold jloads
      rw [hskip, hrt]
      rfl
    simp [optimize_json_code, hload]
  · intro content h
    simp [optimize_json_code, h]

/-- Witness for C4 at a concrete value and a concrete malformed
input. -/
theorem c4_json_idempotent_witness :
    optimize_json_code (dumpJ (.jarr [.jnum 12, .jnull])) =
      dumpJ (.jarr [.jnum 12, .jnull]) ∧
    optimize_json_code ("nope".toList) = optimize_generic_code ("nope".toList) false :=
  ⟨c4_json_idempotent.1 _ (by simp [wfJB, wfArrB]),
    c4_json_idempotent.2 ("nope".toList) rfl⟩

end GithubToText
